import Mathlib

/-!
Verification of `scripts/deploy.mjs` (Obsidian plugin deploy script).

Shallow embedding notes:
* A filesystem path is a list of segments (`FsPath`); all paths are absolute.
  `path.join` is list append, `path.resolve` is `resolvePath` (it folds away
  `""`, `"."` and `".."` segments, as Node's resolver does on an absolute
  path; it does not follow symlinks, matching Node).
* The filesystem is a tree of nodes (`FNode`): regular files with string
  content, symbolic links, and directories holding an ordered entry list.
  Symlink targets are modeled as absolute paths (the script itself only ever
  creates a link whose stored target is the absolute `distDir`); therefore
  `path.resolve(path.dirname(p), linkTarget)` is modeled as
  `resolvePath linkTarget`.
* `FS` couples the tree with `errs`, the set of paths on which a `stat`-class
  inspection fails with a non-ENOENT error (e.g. permission denied).  Node's
  `fs.existsSync` swallows every such error and reports `false`; `lstatSync`
  raises it.  Mutating operations are modeled on the happy path (theorems
  about mutation assume `errs = []`).
* Exceptions are modeled with `Except` / an error component; `process.exit(n)`
  is the `StepResult.exited n` outcome.  The recursion of `copyDirRecursive`
  is not structurally bounded in the source (it diverges if the target is
  nested inside the source), so the model gives it fuel; exhausted fuel is the
  error `Err.fuelOut`, and the caller passes fuel that is ample for every
  non-overlapping copy.
* Per the spec's scoping (§1, §6), `loadVaultPath` and `getPluginId` are
  external collaborators: the entry point `runDeploy` consumes their already
  resolved results (`vault`, `pid`).  Command-line mode parsing (`deployMode`)
  is modeled from source line 18 (`args[0] || "link"`; the empty string is
  falsy in JS).
-/

abbrev FsPath := List String

/-- One step of Node's path canonicalization: `""` and `"."` are dropped,
`".."` removes the last kept segment, anything else is kept. -/
def resolveStep (acc : List String) (seg : String) : List String :=
  if seg = "" then acc
  else if seg = "." then acc
  else if seg = ".." then acc.dropLast
  else acc ++ [seg]

/-- `path.resolve` on an absolute path: canonicalize the segment list. -/
def resolvePath (p : FsPath) : FsPath := p.foldl resolveStep []

/-- A filesystem object: regular file, symbolic link, or directory. -/
inductive FNode where
  | file (content : String)
  | link (target : FsPath)
  | dir (entries : List (String × FNode))
deriving Repr

/-- Errors raised by filesystem operations. -/
inductive Err where
  | enoent | eacces | eexist | enotdir | eisdir | fuelOut
deriving Repr, DecidableEq

/-- First entry of `es` named `s`, if any (directory lookup). -/
def findEntry (es : List (String × FNode)) (s : String) : Option FNode :=
  match es with
  | [] => none
  | (nm, n) :: rest => if nm = s then some n else findEntry rest s

/-- Replace the first entry named `s` with value `v`. -/
def replaceEntry (es : List (String × FNode)) (s : String) (v : FNode) :
    List (String × FNode) :=
  match es with
  | [] => []
  | (nm, n) :: rest =>
    if nm = s then (nm, v) :: rest else (nm, n) :: replaceEntry rest s v

/-- Remove every entry named `s`. -/
def removeEntry (es : List (String × FNode)) (s : String) :
    List (String × FNode) :=
  match es with
  | [] => []
  | (nm, n) :: rest =>
    if nm = s then removeEntry rest s else (nm, n) :: removeEntry rest s

/-- FsPath lookup in the tree.  Does not follow symbolic links (an `lstat`
view); descending below a file or link yields nothing. -/
def FNode.lookup (n : FNode) : FsPath → Option FNode
  | [] => some n
  | s :: rest =>
    match n with
    | .dir es =>
      match findEntry es s with
      | some c => FNode.lookup c rest
      | none => none
    | _ => none

/-- Resolve trailing symbolic links, as `stat` does, with a hop budget. -/
def followLinks (root : FNode) : Nat → FsPath → Option FNode
  | 0, _ => none
  | fuel + 1, p =>
    match FNode.lookup root p with
    | some (.link t) => followLinks root fuel (resolvePath t)
    | some (.file c) => some (.file c)
    | some (.dir es) => some (.dir es)
    | none => none

/-- Filesystem state: the root directory tree, plus the set of paths whose
`stat`-class inspection fails with a non-ENOENT error (permission, I/O). -/
structure FS where
  root : FNode
  errs : List FsPath
deriving Repr

mutual

/-- Height of a tree node (computable; used to provision copy fuel). -/
def FNode.depth : FNode → Nat
  | .file _ => 0
  | .link _ => 0
  | .dir es => entriesDepth es + 1

/-- Height of an entry list. -/
def entriesDepth : List (String × FNode) → Nat
  | [] => 0
  | (_, n) :: rest => max (FNode.depth n) (entriesDepth rest)

end

/-- `fs.existsSync`: follows symlinks; swallows every inspection error
(a failing `stat` — permission denied, I/O error — reports `false`). -/
def existsSync (fs : FS) (p : FsPath) : Bool :=
  if p ∈ fs.errs then false else (followLinks fs.root 32 p).isSome

/-- `fs.lstatSync`: does not follow the final symlink; raises inspection
errors instead of swallowing them. -/
def lstatSync (fs : FS) (p : FsPath) : Except Err FNode :=
  if p ∈ fs.errs then .error .eacces
  else
    match FNode.lookup fs.root p with
    | some n => .ok n
    | none => .error .enoent

/-- `fs.mkdirSync(p, { recursive: true })`: create the directory and every
missing ancestor; error if the path or an ancestor exists as a non-directory. -/
def mkdirp (n : FNode) : FsPath → Except Err FNode :=
  fun p =>
    match p, n with
    | [], .dir es => .ok (.dir es)
    | [], _ => .error .eexist
    | s :: rest, .dir es =>
      match findEntry es s with
      | some c =>
        match mkdirp c rest with
        | .error e => .error e
        | .ok c' => .ok (.dir (replaceEntry es s c'))
      | none =>
        match mkdirp (.dir []) rest with
        | .error e => .error e
        | .ok c' => .ok (.dir (es ++ [(s, c')]))
    | _ :: _, _ => .error .enotdir

/-- `fs.writeFileSync` / the write half of `copyFileSync`: create or
overwrite the file at `p` with content `c`; the parent must exist. -/
def writeAt (n : FNode) : FsPath → String → Except Err FNode :=
  fun p c =>
    match p, n with
    | [], _ => .error .eisdir
    | [s], .dir es =>
      match findEntry es s with
      | some (.dir _) => .error .eisdir
      | some _ => .ok (.dir (replaceEntry es s (.file c)))
      | none => .ok (.dir (es ++ [(s, .file c)]))
    | [_], _ => .error .enotdir
    | s :: r :: rest, .dir es =>
      match findEntry es s with
      | some ch =>
        match writeAt ch (r :: rest) c with
        | .error e => .error e
        | .ok ch' => .ok (.dir (replaceEntry es s ch'))
      | none => .error .enoent
    | _ :: _ :: _, _ => .error .enotdir

/-- `fs.symlinkSync` (creation part, also the shape of any exclusive
creation): error if something already exists at `p`; the parent must exist. -/
def createAt (n : FNode) : FsPath → FNode → Except Err FNode :=
  fun p v =>
    match p, n with
    | [], _ => .error .eexist
    | [s], .dir es =>
      match findEntry es s with
      | some _ => .error .eexist
      | none => .ok (.dir (es ++ [(s, v)]))
    | [_], _ => .error .enotdir
    | s :: r :: rest, .dir es =>
      match findEntry es s with
      | some ch =>
        match createAt ch (r :: rest) v with
        | .error e => .error e
        | .ok ch' => .ok (.dir (replaceEntry es s ch'))
      | none => .error .enoent
    | _ :: _ :: _, _ => .error .enotdir

/-- `fs.rmSync(p, { recursive: true, force: true })`: remove the object at
`p` with its whole subtree; no error if it is missing. -/
def removeAt (n : FNode) : FsPath → FNode :=
  fun p =>
    match p, n with
    | [], _ => n
    | [s], .dir es => .dir (removeEntry es s)
    | [_], _ => n
    | s :: r :: rest, .dir es =>
      match findEntry es s with
      | some ch => .dir (replaceEntry es s (removeAt ch (r :: rest)))
      | none => .dir es
    | _ :: _ :: _, _ => n

/-- `fs.copyFileSync`: read through the source's trailing symlinks (so a
symlink is materialized as a regular file with the resolved content), then
write the bytes at `dest`. -/
def copyFileSync (fs : FS) (src dest : FsPath) : Except Err FS :=
  if src ∈ fs.errs then .error .eacces
  else
    match followLinks fs.root 32 src with
    | some (.file c) =>
      match writeAt fs.root dest c with
      | .error e => .error e
      | .ok r => .ok ⟨r, fs.errs⟩
    | some (.dir _) => .error .eisdir
    | some (.link _) => .error .enoent
    | none => .error .enoent

/-- `fs.readdirSync(p, { withFileTypes: true })`: the entry list of the
directory at `p`, names with their (lstat-style) node. -/
def readdirSync (fs : FS) (p : FsPath) : Except Err (List (String × FNode)) :=
  if p ∈ fs.errs then .error .eacces
  else
    match FNode.lookup fs.root p with
    | some (.dir es) => .ok es
    | some _ => .error .enotdir
    | none => .error .enoent

/-! ## The script (translated from `scripts/deploy.mjs`) -/

/-- `const distDir = path.join(projectRoot, "dist")` (line 12). -/
def distDir (projectRoot : FsPath) : FsPath := projectRoot ++ ["dist"]

/-- `const deployMode = args[0] || "link"` (line 18); `""` is falsy in JS. -/
def deployMode (args : List String) : String :=
  match args with
  | [] => "link"
  | a :: _ => if a = "" then "link" else a

/-- The target plugin directory, `path.join(vaultPath, ".obsidian",
"plugins", pluginId)` (lines 127–132 and 188–193; the plugin id is a single
path segment, as the spec's data-model invariant demands). -/
def targetPluginDir (vault : FsPath) (pid : String) : FsPath :=
  vault ++ [".obsidian", "plugins", pid]

/-- `ensureDistReady`, second half (lines 95–98): ensure `dist/.hotreload`
exists, creating it empty when absent. -/
def ensureHotreload (pr : FsPath) (fs : FS) : FS × Option Err :=
  if existsSync fs (distDir pr ++ [".hotreload"]) then (fs, none)
  else
    match writeAt fs.root (distDir pr ++ [".hotreload"]) "" with
    | .error e => (fs, some e)
    | .ok r => (⟨r, fs.errs⟩, none)

/-- `ensureDistReady` (lines 89–99): create `dist` when absent, then ensure
the `.hotreload` marker file. -/
def ensureDistReady (pr : FsPath) (fs : FS) : FS × Option Err :=
  if existsSync fs (distDir pr) then ensureHotreload pr fs
  else
    match mkdirp fs.root (distDir pr) with
    | .error e => (fs, some e)
    | .ok r => ensureHotreload pr ⟨r, fs.errs⟩

/-- Outcome of one deploy-mode function: fell through normally, called
`process.exit code`, or let an exception escape to `main`'s catch. -/
inductive StepResult where
  | normal
  | exited (code : Nat)
  | threw (e : Err)
deriving Repr, DecidableEq

/-- Lines 169–180 of `deployLink`: ensure the parent directory of the
target, then create the symlink; a symlink failure is caught locally and
exits with status 1. -/
def linkCreate (pr : FsPath) (target : FsPath) (fs : FS) : FS × StepResult :=
  match mkdirp fs.root target.dropLast with
  | .error e => (fs, .threw e)
  | .ok r =>
    match createAt r target (.link (distDir pr)) with
    | .error _ => (⟨r, fs.errs⟩, .exited 1)
    | .ok r' => (⟨r', fs.errs⟩, .normal)

/-- `deployLink` (lines 126–181): self-target guard, reconcile the existing
object at the target (early return on a link to `dist`; back up `data.json`
from a directory into `dist`; remove the old object), then link. -/
def deployLink (pr vault : FsPath) (pid : String) (fs : FS) : FS × StepResult :=
  if resolvePath (targetPluginDir vault pid) = resolvePath (distDir pr) then
    (fs, .exited 0)
  else if existsSync fs (targetPluginDir vault pid) then
    match lstatSync fs (targetPluginDir vault pid) with
    | .error e => (fs, .threw e)
    | .ok (.link t) =>
      if resolvePath t = resolvePath (distDir pr) then (fs, .normal)
      else linkCreate pr (targetPluginDir vault pid)
        ⟨removeAt fs.root (targetPluginDir vault pid), fs.errs⟩
    | .ok (.dir _) =>
      if existsSync fs (targetPluginDir vault pid ++ ["data.json"]) then
        match copyFileSync fs (targetPluginDir vault pid ++ ["data.json"])
            (distDir pr ++ ["data.json"]) with
        | .error e => (fs, .threw e)
        | .ok fs' => linkCreate pr (targetPluginDir vault pid)
            ⟨removeAt fs'.root (targetPluginDir vault pid), fs'.errs⟩
      else linkCreate pr (targetPluginDir vault pid)
        ⟨removeAt fs.root (targetPluginDir vault pid), fs.errs⟩
    | .ok (.file _) => linkCreate pr (targetPluginDir vault pid)
        ⟨removeAt fs.root (targetPluginDir vault pid), fs.errs⟩
  else linkCreate pr (targetPluginDir vault pid) fs

/-- The entry loop of `copyDirRecursive` (lines 107–117): for each entry of
the snapshot, recurse on directories (`go`), otherwise `copyFileSync`.  An
escaping exception stops the loop with the state reached so far. -/
def copyEntriesAux (go : FS → FsPath → FsPath → FS × Option Err)
    (fs : FS) (src dest : FsPath) :
    List (String × FNode) → FS × Option Err
  | [] => (fs, none)
  | (nm, nd) :: rest =>
    match nd with
    | .dir _ =>
      match go fs (src ++ [nm]) (dest ++ [nm]) with
      | (fs', none) => copyEntriesAux go fs' src dest rest
      | (fs', some e) => (fs', some e)
    | _ =>
      match copyFileSync fs (src ++ [nm]) (dest ++ [nm]) with
      | .ok fs' => copyEntriesAux go fs' src dest rest
      | .error e => (fs, some e)

/-- `copyDirRecursive` (lines 104–118): `mkdirSync(dest, { recursive })`,
then copy every entry of `src`.  The source recursion has no structural
bound (it diverges when the target nests inside the source), so the model
carries fuel; running out is the error `Err.fuelOut`. -/
def copyDirRecursive : Nat → FS → FsPath → FsPath → FS × Option Err
  | 0, fs, _, _ => (fs, some .fuelOut)
  | fuel + 1, fs, src, dest =>
    match mkdirp fs.root dest with
    | .error e => (fs, some e)
    | .ok r =>
      match readdirSync ⟨r, fs.errs⟩ src with
      | .error e => (⟨r, fs.errs⟩, some e)
      | .ok entries =>
        copyEntriesAux (copyDirRecursive fuel) ⟨r, fs.errs⟩ src dest entries

/-- The target-removal step of `deployCopy` (lines 208–210): remove the
existing object at `p` when the existence probe sees one. -/
def rmExisting (fs : FS) (p : FsPath) : FS :=
  if existsSync fs p then ⟨removeAt fs.root p, fs.errs⟩ else fs

/-- `deployCopy` (lines 187–221): self-target guard, fail when `dist` is
missing, remove any existing target, then copy the tree (errors during the
copy are caught and exit with status 1, keeping the partial state). -/
def deployCopy (pr vault : FsPath) (pid : String) (fs : FS) : FS × StepResult :=
  if resolvePath (targetPluginDir vault pid) = resolvePath (distDir pr) then
    (fs, .exited 0)
  else if existsSync fs (distDir pr) then
    match copyDirRecursive
        (FNode.depth (rmExisting fs (targetPluginDir vault pid)).root + 1)
        (rmExisting fs (targetPluginDir vault pid)) (distDir pr)
        (targetPluginDir vault pid) with
    | (fs2, none) => (fs2, .normal)
    | (fs2, some _) => (fs2, .exited 1)
  else (fs, .exited 1)

/-- `main` (lines 224–251) after the external collaborators have produced a
resolved vault path and plugin id: `ensureDistReady`, then dispatch on the
mode; any escaped exception is caught at the top level and exits 1; falling
through exits 0.  Result: final filesystem and process exit code. -/
def runDeploy (pr : FsPath) (mode : String) (vault : FsPath) (pid : String)
    (fs : FS) : FS × Nat :=
  match ensureDistReady pr fs with
  | (fs', some _) => (fs', 1)
  | (fs', none) =>
    if mode = "link" then
      match deployLink pr vault pid fs' with
      | (fs'', .normal) => (fs'', 0)
      | (fs'', .exited c) => (fs'', c)
      | (fs'', .threw _) => (fs'', 1)
    else if mode = "copy" then
      match deployCopy pr vault pid fs' with
      | (fs'', .normal) => (fs'', 0)
      | (fs'', .exited c) => (fs'', c)
      | (fs'', .threw _) => (fs'', 1)
    else (fs', 1)

/-- The whole invocation: parse the mode from `argv.slice(2)`, then run. -/
def runScript (pr : FsPath) (args : List String) (vault : FsPath) (pid : String)
    (fs : FS) : FS × Nat :=
  runDeploy pr (deployMode args) vault pid fs

/-- The target-state classification of spec §4.2, exactly as `deployLink`
performs it inline (lines 141–155): an `existsSync` check, then `lstat`,
then `readlink` with resolution against `dist`. -/
inductive TargetState where
  | Absent | LinkToSource | LinkElsewhere | Directory | Other
deriving Repr, DecidableEq

/-- The inspection, extracted from `deployLink` lines 141–155: classify the
object currently at `target`. -/
def inspect (pr : FsPath) (fs : FS) (target : FsPath) : Except Err TargetState :=
  if existsSync fs target then
    match lstatSync fs target with
    | .error e => .error e
    | .ok (.link t) =>
      if resolvePath t = resolvePath (distDir pr) then .ok .LinkToSource
      else .ok .LinkElsewhere
    | .ok (.dir _) => .ok .Directory
    | .ok (.file _) => .ok .Other
  else .ok .Absent

/-! ## Concrete states used as evidence inputs -/

/-- A state whose artifact directory `pr/dist` is absent while the target
plugin directory exists and holds a stale file. -/
def fsA : FS :=
  ⟨.dir [("v", .dir [(".obsidian", .dir [("plugins",
      .dir [("p", .dir [("old.txt", .file "o")])])])])], []⟩

/-- Same shape as `fsA`, kept separate as the C2 evidence input. -/
def fsB : FS :=
  ⟨.dir [("v", .dir [(".obsidian", .dir [("plugins",
      .dir [("p", .dir [("old.txt", .file "o")])])])])], []⟩

/-- An empty filesystem (C6 evidence input). -/
def fsSelf : FS := ⟨.dir [], []⟩

/-- A state where the target plugin directory exists (with a backup file)
but stat-inspecting the target fails with a permission-class error. -/
def fsErr : FS :=
  ⟨.dir [("v", .dir [(".obsidian", .dir [("plugins",
      .dir [("p", .dir [("data.json", .file "X")])])])])],
   [["v", ".obsidian", "plugins", "p"]]⟩

/-- `isInit p q`: `p` is an initial segment of `q` (so `q` lies at or below
`p` in the tree). -/
def isInit : FsPath → FsPath → Bool
  | [], _ => true
  | _ :: _, [] => false
  | a :: p, b :: q => if a = b then isInit p q else false

/-! ## Copy-mode correctness: specification-side definitions -/

/-- Place node `v` at path `p`, creating missing intermediate directories
(as the copy's `mkdirSync` does) and replacing anything at the final
position.  The net effect of a completed copy on the destination is one
graft; it is the specification-side summary the copy is proved against. -/
def graftAt (n : FNode) : FsPath → FNode → Except Err FNode :=
  fun p v =>
    match p, n with
    | [], _ => .ok v
    | [s], .dir es =>
      match findEntry es s with
      | some _ => .ok (.dir (replaceEntry es s v))
      | none => .ok (.dir (es ++ [(s, v)]))
    | [_], _ => .error .enotdir
    | s :: r :: rest, .dir es =>
      match findEntry es s with
      | some ch =>
        match graftAt ch (r :: rest) v with
        | .error e => .error e
        | .ok ch' => .ok (.dir (replaceEntry es s ch'))
      | none =>
        match graftAt (.dir []) (r :: rest) v with
        | .error e => .error e
        | .ok ch' => .ok (.dir (es ++ [(s, ch')]))
    | _ :: _ :: _, _ => .error .enotdir

/-- The entry names of a directory entry list. -/
def entryNames (es : List (String × FNode)) : List String := es.map Prod.fst

/-- No duplicates, as a Boolean. -/
def nodupB : List String → Bool
  | [] => true
  | s :: rest => (!(rest.contains s)) && nodupB rest

mutual

/-- Well-formed tree: every directory has pairwise distinct entry names. -/
def wfNode : FNode → Bool
  | .file _ => true
  | .link _ => true
  | .dir es => nodupB (entryNames es) && wfEntries es

/-- Well-formedness of all entries. -/
def wfEntries : List (String × FNode) → Bool
  | [] => true
  | (_, n) :: rest => wfNode n && wfEntries rest

end

mutual

/-- The tree contains no symbolic links. -/
def noLinks : FNode → Bool
  | .file _ => true
  | .link _ => false
  | .dir es => noLinksEntries es

/-- No symbolic links among the entries. -/
def noLinksEntries : List (String × FNode) → Bool
  | [] => true
  | (_, n) :: rest => noLinks n && noLinksEntries rest

end

mutual

/-- Every symbolic link in the tree resolves in one hop (in `root`) to a
regular file whose path is unrelated to the copy destination `dest` — the
condition under which link materialization is deterministic during a copy. -/
def linksDirect (root : FNode) (dest : FsPath) : FNode → Bool
  | .file _ => true
  | .link t =>
    match FNode.lookup root (resolvePath t) with
    | some (.file _) =>
      !(isInit dest (resolvePath t)) && !(isInit (resolvePath t) dest)
    | _ => false
  | .dir es => linksDirectEntries root dest es

/-- `linksDirect` over an entry list. -/
def linksDirectEntries (root : FNode) (dest : FsPath) :
    List (String × FNode) → Bool
  | [] => true
  | (_, n) :: rest =>
    linksDirect root dest n && linksDirectEntries root dest rest

end

mutual

/-- Materialization of a source tree as the copy produces it: files are
kept, a symbolic link becomes a regular file with the resolved content
(read in `root`), directories are materialized entrywise. -/
def matNode (root : FNode) : FNode → Except Err FNode
  | .file c => .ok (.file c)
  | .link t =>
    match FNode.lookup root (resolvePath t) with
    | some (.file c) => .ok (.file c)
    | _ => .error .enoent
  | .dir es =>
    match matEntries root es with
    | .error e => .error e
    | .ok es' => .ok (.dir es')

/-- Entrywise materialization, preserving names and order. -/
def matEntries (root : FNode) :
    List (String × FNode) → Except Err (List (String × FNode))
  | [] => .ok []
  | (nm, n) :: rest =>
    match matNode root n with
    | .error e => .error e
    | .ok n' =>
      match matEntries root rest with
      | .error e => .error e
      | .ok rest' => .ok ((nm, n') :: rest')

end

def S7 : FNode :=
  .dir [("a", .file "x"),
        ("sub", .dir [("b", .file "y"), ("empty", .dir [])])]

def fs7 : FS :=
  ⟨.dir [("pr", .dir [("dist", S7)]), ("v", .dir [])], []⟩

def fs7res : FS :=
  ⟨.dir [("pr", .dir [("dist", S7)]),
         ("v", .dir [(".obsidian", .dir [("plugins", .dir [("p", S7)])])])],
   []⟩

def S8 : FNode :=
  .dir [("lnk", .link ["pr", "data", "f"]), ("a", .file "x")]

def fs8 : FS :=
  ⟨.dir [("pr", .dir [("dist", S8), ("data", .dir [("f", .file "hello")])]),
         ("v", .dir [])], []⟩

def fs8res : FS :=
  ⟨.dir [("pr", .dir [("dist", S8), ("data", .dir [("f", .file "hello")])]),
         ("v", .dir [(".obsidian", .dir [("plugins", .dir
           [("p", .dir [("lnk", .file "hello"), ("a", .file "x")])])])])],
   []⟩

/-! ## C1 -/

/-- Claim C1: «In copy mode, if the source artifact directory (dist) does
not exist at invocation, the run exits with failure status (exit code 1)
before any copy or removal of the target is attempted.»  The code violates
this: `main` runs `ensureDistReady` before dispatching, which creates
`dist` (with the `.hotreload` marker), so `deployCopy`'s missing-`dist`
check never fires.  Evaluated at `fsA` (no `dist`, target present), the run
removes the target, copies the freshly created near-empty `dist` over it,
and exits 0. -/
theorem C1_copy_missing_dist_behavior :
    runScript ["pr"] ["copy"] ["v"] "p" fsA =
      (⟨.dir [("v", .dir [(".obsidian", .dir [("plugins",
          .dir [("p", .dir [(".hotreload", .file "")])])])]),
        ("pr", .dir [("dist", .dir [(".hotreload", .file "")])])], []⟩, 0) ∧
    FNode.lookup fsA.root (targetPluginDir ["v"] "p") =
      some (.dir [("old.txt", .file "o")]) ∧
    FNode.lookup (runScript ["pr"] ["copy"] ["v"] "p" fsA).1.root
        (targetPluginDir ["v"] "p") =
      some (.dir [(".hotreload", .file "")]) :=
  ⟨rfl, rfl, rfl⟩

/-! ## C2 -/

/-- Claim C2 counterexample: at mode `"sync"` on `fsB` (artifact directory
absent), the run does exit 1, but it mutates the filesystem: the predispatch
`ensureDistReady` creates `pr/dist/.hotreload`.  So «exits with failure
status and performs no filesystem mutation whatsoever» is false here. -/
theorem C2_counterexample :
    ¬ ((runDeploy ["pr"] "sync" ["v"] "p" fsB).2 = 1 ∧
       (runDeploy ["pr"] "sync" ["v"] "p" fsB).1.root = fsB.root) := by
  intro h
  have hb := congrArg
    (fun r => (followLinks r 32 (distDir ["pr"])).isSome) h.2
  exact absurd hb (by decide)

/-! ## C6 -/

/-- Claim C6 counterexample: with `vault = []`, `pid = "dist"` and project
root `[".obsidian", "plugins"]`, the resolved target equals the resolved
artifact directory, and the run exits 0 — but it is not mutation-free: the
predispatch `ensureDistReady` creates the artifact directory and marker in
`fsSelf`.  So «performs no filesystem mutation and exits with success» is
false as stated. -/
theorem C6_counterexample :
    resolvePath (targetPluginDir [] "dist") =
      resolvePath (distDir [".obsidian", "plugins"]) ∧
    ¬ ((runDeploy [".obsidian", "plugins"] "link" [] "dist" fsSelf).2 = 0 ∧
       (runDeploy [".obsidian", "plugins"] "link" [] "dist" fsSelf).1.root =
         fsSelf.root) := by
  refine ⟨rfl, ?_⟩
  intro h
  have hb := congrArg
    (fun r => (followLinks r 32 (distDir [".obsidian", "plugins"])).isSome) h.2
  exact absurd hb (by decide)

/-! ## C3 -/

/-- Claim C3 counterexample: in `fsErr` the target path exists as a real
directory, but stat-inspecting it fails with a permission-class error.  The
inspection classifies it `Absent` (because `fs.existsSync` swallows the
error) instead of propagating a fatal error — refuting «classifies the
target as Absent only when the filesystem reports that the path does not
exist; any other filesystem error propagates as a fatal error». -/
theorem C3_counterexample :
    inspect ["pr"] fsErr ["v", ".obsidian", "plugins", "p"] = .ok .Absent ∧
    FNode.lookup fsErr.root ["v", ".obsidian", "plugins", "p"] =
      some (.dir [("data.json", .file "X")]) ∧
    ["v", ".obsidian", "plugins", "p"] ∈ fsErr.errs :=
  ⟨rfl, rfl, by decide⟩

/-- If trailing-symlink resolution yields a node, the plain lookup already
yielded one. -/
theorem followLinks_isSome_lookup {root : FNode} {fuel : Nat} {p : FsPath}
    {n : FNode} (h : followLinks root fuel p = some n) :
    ∃ m, FNode.lookup root p = some m := by
  cases fuel with
  | zero => exact absurd h (by simp [followLinks])
  | succ f =>
    unfold followLinks at h
    cases hl : FNode.lookup root p with
    | some m => exact ⟨m, rfl⟩
    | none => rw [hl] at h; exact absurd h (by simp)

/-- Claim C3, amended: the inspection reports `Absent` exactly when the
`existsSync` probe fails — the path is missing, a trailing symlink dangles,
or the stat-class inspection errs (the error being swallowed); an error is
never propagated from this stage. -/
theorem C3_inspect_absent_iff (pr : FsPath) (fs : FS) (target : FsPath) :
    inspect pr fs target = .ok .Absent ↔
      (target ∈ fs.errs ∨ followLinks fs.root 32 target = none) := by
  unfold inspect existsSync
  by_cases he : target ∈ fs.errs
  · simp [he]
  · simp only [he, if_false]
    cases hf : followLinks fs.root 32 target with
    | none => simp
    | some n =>
      simp only [Option.isSome_some, if_true]
      obtain ⟨m, hm⟩ := followLinks_isSome_lookup hf
      unfold lstatSync
      simp only [he, if_false, hm]
      cases m with
      | file c => simp
      | link t =>
        by_cases hr : resolvePath t = resolvePath (distDir pr) <;> simp [hr]
      | dir es => simp

/-! ## C9 -/

/-- Claim C9: target path resolution is deterministic, has the fixed form
`<base>/.obsidian/plugins/<pluginId>`, and its parent-of-parent is the base
joined with the `.obsidian` namespace segment. -/
theorem C9_resolveTarget (vault v2 : FsPath) (pid p2 : String)
    (hv : vault = v2) (hp : pid = p2) :
    targetPluginDir vault pid = targetPluginDir v2 p2 ∧
    targetPluginDir vault pid = vault ++ [".obsidian", "plugins", pid] ∧
    (targetPluginDir vault pid).dropLast.dropLast = vault ++ [".obsidian"] := by
  subst hv hp
  refine ⟨rfl, rfl, ?_⟩
  have h1 : targetPluginDir vault pid =
      (vault ++ [".obsidian", "plugins"]) ++ [pid] := by
    simp [targetPluginDir]
  have h2 : vault ++ [".obsidian", "plugins"] =
      (vault ++ [".obsidian"]) ++ ["plugins"] := by simp
  rw [h1, List.dropLast_concat, h2, List.dropLast_concat]

/-- Witness for C9 at a concrete base path and plugin id. -/
theorem C9_witness :
    targetPluginDir ["base"] "plug" = targetPluginDir ["base"] "plug" ∧
    targetPluginDir ["base"] "plug" =
      ["base"] ++ [".obsidian", "plugins", "plug"] ∧
    (targetPluginDir ["base"] "plug").dropLast.dropLast =
      ["base"] ++ [".obsidian"] :=
  C9_resolveTarget ["base"] ["base"] "plug" "plug" rfl rfl

/-! ## C10 -/

/-- Claim C10: with no command-line arguments the mode selector defaults to
`"link"`, and the whole run coincides with the run on an explicit `"link"`
argument, for every project root, vault, plugin id and filesystem. -/
theorem C10_default_mode_is_link :
    deployMode [] = "link" ∧
    ∀ (pr vault : FsPath) (pid : String) (fs : FS),
      runScript pr [] vault pid fs = runScript pr ["link"] vault pid fs :=
  ⟨rfl, fun _ _ _ _ => rfl⟩

/-! ## Path and entry-list toolbox -/

theorem isInit_iff {p q : FsPath} : isInit p q = true ↔ ∃ r, q = p ++ r := by
  induction p generalizing q with
  | nil => simp [isInit]
  | cons a p ih =>
    cases q with
    | nil => simp [isInit]
    | cons b q =>
      by_cases hab : a = b
      · subst hab
        simp [isInit, ih]
      · simp only [isInit, if_neg hab]
        constructor
        · intro h; exact Bool.noConfusion h
        · rintro ⟨r, hr⟩
          injection hr with h1 _
          exact absurd h1.symm hab

theorem isInit_refl (p : FsPath) : isInit p p = true :=
  isInit_iff.2 ⟨[], by simp⟩

theorem isInit_append (p r : FsPath) : isInit p (p ++ r) = true :=
  isInit_iff.2 ⟨r, rfl⟩

theorem isInit_trans {p q r : FsPath} (h1 : isInit p q = true)
    (h2 : isInit q r = true) : isInit p r = true := by
  obtain ⟨u, hu⟩ := isInit_iff.1 h1
  obtain ⟨v, hv⟩ := isInit_iff.1 h2
  exact isInit_iff.2 ⟨u ++ v, by simp [hv, hu]⟩

theorem snoc_inj {l₁ l₂ : List String} {a b : String}
    (h : l₁ ++ [a] = l₂ ++ [b]) : l₁ = l₂ ∧ a = b := by
  have hl : l₁.length = l₂.length := by
    have := congrArg List.length h
    simp only [List.length_append, List.length_cons, List.length_nil] at this
    omega
  obtain ⟨h1, h2⟩ := List.append_inj h hl
  exact ⟨h1, by simpa using h2⟩

theorem isInit_snoc {q p : FsPath} {x : String}
    (h : isInit q (p ++ [x]) = true) : isInit q p = true ∨ q = p ++ [x] := by
  obtain ⟨r, hr⟩ := isInit_iff.1 h
  rcases List.eq_nil_or_concat r with rfl | ⟨r₀, e, rfl⟩
  · right; simp at hr; simp [hr]
  · left
    rw [List.concat_eq_append, ← List.append_assoc] at hr
    obtain ⟨h1, _⟩ := snoc_inj hr
    exact isInit_iff.2 ⟨r₀, h1⟩

theorem notInit_snoc_snoc {src dest : FsPath} {a b : String}
    (h : isInit src dest = false) :
    isInit (src ++ [a]) (dest ++ [b]) = false := by
  by_contra hc
  have hc' : isInit (src ++ [a]) (dest ++ [b] : FsPath) = true := by
    revert hc; cases isInit (src ++ [a]) (dest ++ [b] : FsPath) <;> simp
  obtain ⟨r, hr⟩ := isInit_iff.1 hc'
  rcases List.eq_nil_or_concat r with rfl | ⟨r₀, e, rfl⟩
  · simp only [List.append_nil] at hr
    obtain ⟨h1, _⟩ := snoc_inj hr.symm
    rw [h1] at h
    rw [isInit_refl] at h
    exact Bool.noConfusion h
  · rw [List.concat_eq_append, ← List.append_assoc] at hr
    obtain ⟨h1, _⟩ := snoc_inj hr
    have hsd : isInit src dest = true := by
      rw [h1, List.append_assoc]
      exact isInit_append src _
    rw [hsd] at h
    exact Bool.noConfusion h

theorem notInit_parent_snoc {src dest : FsPath} {a : String}
    (h1 : isInit src dest = false) (h2 : isInit dest src = false) :
    isInit dest (src ++ [a]) = false := by
  by_contra hc
  have hc' : isInit dest (src ++ [a] : FsPath) = true := by
    revert hc; cases isInit dest (src ++ [a] : FsPath) <;> simp
  rcases isInit_snoc hc' with h | h
  · rw [h] at h2; exact Bool.noConfusion h2
  · have : isInit src dest = true := by
      rw [h]; exact isInit_append src [a]
    rw [this] at h1; exact Bool.noConfusion h1

theorem notInit_snoc_parent {src dest : FsPath} {a : String}
    (h1 : isInit src dest = false) :
    isInit (src ++ [a]) dest = false := by
  by_contra hc
  have hc' : isInit (src ++ [a] : FsPath) dest = true := by
    revert hc; cases isInit (src ++ [a] : FsPath) dest <;> simp
  obtain ⟨r, hr⟩ := isInit_iff.1 hc'
  have : isInit src dest = true := by
    rw [hr, List.append_assoc]; exact isInit_append src _
  rw [this] at h1; exact Bool.noConfusion h1

/-! ### Entry-list lemmas -/

theorem findEntry_nil {s : String} : findEntry [] s = none := rfl

theorem findEntry_cons {nm : String} {n : FNode}
    {rest : List (String × FNode)} {s : String} :
    findEntry ((nm, n) :: rest) s =
      if nm = s then some n else findEntry rest s := rfl

theorem replaceEntry_cons {nm : String} {n : FNode}
    {rest : List (String × FNode)} {s : String} {v : FNode} :
    replaceEntry ((nm, n) :: rest) s v =
      if nm = s then (nm, v) :: rest
      else (nm, n) :: replaceEntry rest s v := rfl

theorem removeEntry_cons {nm : String} {n : FNode}
    {rest : List (String × FNode)} {s : String} :
    removeEntry ((nm, n) :: rest) s =
      if nm = s then removeEntry rest s
      else (nm, n) :: removeEntry rest s := rfl

theorem findEntry_append_left {es es2 : List (String × FNode)} {s : String}
    {v : FNode} (h : findEntry es s = some v) :
    findEntry (es ++ es2) s = some v := by
  induction es with
  | nil => exact absurd h (by simp [findEntry_nil])
  | cons e rest ih =>
    obtain ⟨nm, n⟩ := e
    rw [findEntry_cons] at h
    by_cases hn : nm = s
    · rw [if_pos hn] at h
      simp [findEntry_cons, hn, h]
    · rw [if_neg hn] at h
      simpa [findEntry_cons, hn] using ih h

theorem findEntry_append_right {es es2 : List (String × FNode)} {s : String}
    (h : findEntry es s = none) :
    findEntry (es ++ es2) s = findEntry es2 s := by
  induction es with
  | nil => simp
  | cons e rest ih =>
    obtain ⟨nm, n⟩ := e
    rw [findEntry_cons] at h
    by_cases hn : nm = s
    · rw [if_pos hn] at h; exact Option.noConfusion h
    · rw [if_neg hn] at h
      rw [List.cons_append, findEntry_cons, if_neg hn]
      exact ih h

theorem findEntry_replaceEntry_self {es : List (String × FNode)} {s : String}
    {c v : FNode} (h : findEntry es s = some c) :
    findEntry (replaceEntry es s v) s = some v := by
  induction es with
  | nil => exact absurd h (by simp [findEntry_nil])
  | cons e rest ih =>
    obtain ⟨nm, n⟩ := e
    rw [findEntry_cons] at h
    rw [replaceEntry_cons]
    by_cases hn : nm = s
    · simp [findEntry_cons, hn]
    · rw [if_neg hn] at h
      rw [if_neg hn, findEntry_cons, if_neg hn]
      exact ih h

theorem replaceEntry_none {es : List (String × FNode)} {s : String}
    {v : FNode} (h : findEntry es s = none) : replaceEntry es s v = es := by
  induction es with
  | nil => rfl
  | cons e rest ih =>
    obtain ⟨nm, n⟩ := e
    rw [findEntry_cons] at h
    rw [replaceEntry_cons]
    by_cases hn : nm = s
    · rw [if_pos hn] at h; exact Option.noConfusion h
    · rw [if_neg hn] at h
      rw [if_neg hn, ih h]

theorem replaceEntry_self {es : List (String × FNode)} {s : String}
    {c : FNode} (h : findEntry es s = some c) : replaceEntry es s c = es := by
  induction es with
  | nil => rfl
  | cons e rest ih =>
    obtain ⟨nm, n⟩ := e
    rw [findEntry_cons] at h
    rw [replaceEntry_cons]
    by_cases hn : nm = s
    · rw [if_pos hn] at h
      injection h with h'
      rw [if_pos hn, h']
    · rw [if_neg hn] at h
      rw [if_neg hn, ih h]

theorem findEntry_replaceEntry_ne {es : List (String × FNode)}
    {s s' : String} {v : FNode} (h : s' ≠ s) :
    findEntry (replaceEntry es s v) s' = findEntry es s' := by
  induction es with
  | nil => rfl
  | cons e rest ih =>
    obtain ⟨nm, n⟩ := e
    rw [replaceEntry_cons]
    by_cases hn : nm = s
    · have hns : ¬ nm = s' := fun hh => h (hn ▸ hh.symm)
      rw [if_pos hn, findEntry_cons, findEntry_cons, if_neg hns, if_neg hns]
    · rw [if_neg hn, findEntry_cons, findEntry_cons]
      by_cases hn' : nm = s'
      · rw [if_pos hn', if_pos hn']
      · rw [if_neg hn', if_neg hn', ih]

theorem findEntry_removeEntry_self {es : List (String × FNode)}
    {s : String} : findEntry (removeEntry es s) s = none := by
  induction es with
  | nil => rfl
  | cons e rest ih =>
    obtain ⟨nm, n⟩ := e
    rw [removeEntry_cons]
    by_cases hn : nm = s
    · rw [if_pos hn]; exact ih
    · rw [if_neg hn, findEntry_cons, if_neg hn]; exact ih

theorem findEntry_removeEntry_ne {es : List (String × FNode)}
    {s s' : String} (h : s' ≠ s) :
    findEntry (removeEntry es s) s' = findEntry es s' := by
  induction es with
  | nil => rfl
  | cons e rest ih =>
    obtain ⟨nm, n⟩ := e
    rw [removeEntry_cons]
    by_cases hn : nm = s
    · have hns : ¬ nm = s' := fun hh => h (hn ▸ hh.symm)
      rw [if_pos hn, findEntry_cons, if_neg hns]
      exact ih
    · rw [if_neg hn, findEntry_cons, findEntry_cons]
      by_cases hn' : nm = s'
      · rw [if_pos hn', if_pos hn']
      · rw [if_neg hn', if_neg hn']
        exact ih

/-! ### Lookup equations -/

theorem lookup_nil (n : FNode) : FNode.lookup n [] = some n := rfl

theorem lookup_dir_cons {es : List (String × FNode)} {s : String}
    {p : FsPath} :
    FNode.lookup (.dir es) (s :: p) =
      match findEntry es s with
      | some c => FNode.lookup c p
      | none => none := rfl

theorem lookup_dir_cons_some {es : List (String × FNode)} {s : String}
    {p : FsPath} {c : FNode} (h : findEntry es s = some c) :
    FNode.lookup (.dir es) (s :: p) = FNode.lookup c p := by
  rw [lookup_dir_cons, h]

theorem lookup_dir_cons_none {es : List (String × FNode)} {s : String}
    {p : FsPath} (h : findEntry es s = none) :
    FNode.lookup (.dir es) (s :: p) = none := by
  rw [lookup_dir_cons, h]

theorem lookup_file_cons {c : String} {s : String} {p : FsPath} :
    FNode.lookup (.file c) (s :: p) = none := rfl

theorem lookup_link_cons {t : FsPath} {s : String} {p : FsPath} :
    FNode.lookup (.link t) (s :: p) = none := rfl

/-! ### More path lemmas -/

theorem isInit_cons_cons {a : String} {p q : FsPath} :
    isInit (a :: p) (a :: q) = isInit p q := by simp [isInit]

theorem isInit_cons_ne {a b : String} {p q : FsPath} (h : ¬ a = b) :
    isInit (a :: p) (b :: q) = false := by simp [isInit, h]

theorem isInit_comparable {p q r : FsPath} (hp : isInit p r = true)
    (hq : isInit q r = true) : isInit p q = true ∨ isInit q p = true := by
  induction p generalizing q r with
  | nil => left; rfl
  | cons a p ih =>
    cases r with
    | nil => exact absurd hp (by simp [isInit])
    | cons c r =>
      cases q with
      | nil => right; rfl
      | cons b q =>
        by_cases hac : a = c
        · subst hac
          rw [isInit_cons_cons] at hp
          by_cases hbc : b = a
          · subst hbc
            rw [isInit_cons_cons] at hq
            rw [isInit_cons_cons, isInit_cons_cons]
            exact ih hp hq
          · rw [isInit_cons_ne hbc] at hq
            exact Bool.noConfusion hq
        · rw [isInit_cons_ne hac] at hp
          exact Bool.noConfusion hp

theorem isInit_snoc_of_init {p q : FsPath} {a : String}
    (h : isInit (p ++ [a]) q = true) : isInit p q = true := by
  obtain ⟨r, hr⟩ := isInit_iff.1 h
  exact isInit_iff.2 ⟨[a] ++ r, by simp [hr]⟩

/-- Lookup splits along path concatenation. -/
theorem lookup_append (n : FNode) (p q : FsPath) :
    FNode.lookup n (p ++ q) =
      (FNode.lookup n p).bind (fun m => FNode.lookup m q) := by
  induction p generalizing n with
  | nil => simp [lookup_nil]
  | cons s p ih =>
    cases n with
    | file c => simp [lookup_file_cons]
    | link t => simp [lookup_link_cons]
    | dir es =>
      rw [List.cons_append, lookup_dir_cons, lookup_dir_cons]
      cases hf : findEntry es s with
      | some c => simpa using ih c
      | none => simp

/-! ### followLinks lemmas -/

theorem followLinks_file {root : FNode} {p : FsPath} {c : String} {n : Nat}
    (h : FNode.lookup root p = some (.file c)) :
    followLinks root (n + 1) p = some (.file c) := by
  unfold followLinks; rw [h]

theorem followLinks_dir {root : FNode} {p : FsPath}
    {es : List (String × FNode)} {n : Nat}
    (h : FNode.lookup root p = some (.dir es)) :
    followLinks root (n + 1) p = some (.dir es) := by
  unfold followLinks; rw [h]

theorem followLinks_none {root : FNode} {p : FsPath} {n : Nat}
    (h : FNode.lookup root p = none) :
    followLinks root (n + 1) p = none := by
  unfold followLinks; rw [h]

theorem followLinks_succ {root : FNode} {p : FsPath} {n : Nat} :
    followLinks root (n + 1) p =
      match FNode.lookup root p with
      | some (.link t) => followLinks root n (resolvePath t)
      | some (.file c) => some (.file c)
      | some (.dir es) => some (.dir es)
      | none => none := rfl

theorem followLinks_link {root : FNode} {p : FsPath} {t : FsPath} {n : Nat}
    (h : FNode.lookup root p = some (.link t)) :
    followLinks root (n + 1) p = followLinks root n (resolvePath t) := by
  rw [followLinks_succ, h]

theorem existsSync_of_file {fs : FS} {p : FsPath} {c : String}
    (he : fs.errs = []) (h : FNode.lookup fs.root p = some (.file c)) :
    existsSync fs p = true := by
  unfold existsSync
  rw [he]
  simp [followLinks_file h]

theorem existsSync_of_dir {fs : FS} {p : FsPath} {es : List (String × FNode)}
    (he : fs.errs = []) (h : FNode.lookup fs.root p = some (.dir es)) :
    existsSync fs p = true := by
  unfold existsSync
  rw [he]
  simp [followLinks_dir h]

theorem existsSync_false_cases {fs : FS} {p : FsPath}
    (he : fs.errs = []) (h : existsSync fs p = false) :
    FNode.lookup fs.root p = none ∨ ∃ t, FNode.lookup fs.root p = some (.link t) := by
  cases hl : FNode.lookup fs.root p with
  | none => exact Or.inl rfl
  | some m =>
    cases m with
    | file c => exact absurd h (by rw [existsSync_of_file he hl]; simp)
    | dir es => exact absurd h (by rw [existsSync_of_dir he hl]; simp)
    | link t => exact Or.inr ⟨t, rfl⟩

/-! ### mkdirp lemmas -/

theorem mkdirp_nil_dir {es : List (String × FNode)} :
    mkdirp (.dir es) [] = .ok (.dir es) := rfl

theorem mkdirp_cons_dir {es : List (String × FNode)} {s : String}
    {rest : FsPath} :
    mkdirp (.dir es) (s :: rest) =
      match findEntry es s with
      | some c =>
        match mkdirp c rest with
        | .error e => .error e
        | .ok c' => .ok (.dir (replaceEntry es s c'))
      | none =>
        match mkdirp (.dir []) rest with
        | .error e => .error e
        | .ok c' => .ok (.dir (es ++ [(s, c')])) := rfl

theorem mkdirp_cons_file {c : String} {s : String} {rest : FsPath} :
    mkdirp (.file c) (s :: rest) = .error .enotdir := rfl

theorem mkdirp_cons_link {t : FsPath} {s : String} {rest : FsPath} :
    mkdirp (.link t) (s :: rest) = .error .enotdir := rfl

theorem mkdirp_ok_self {n n' : FNode} {p : FsPath}
    (h : mkdirp n p = .ok n') : ∃ es, FNode.lookup n' p = some (.dir es) := by
  induction p generalizing n n' with
  | nil =>
    cases n with
    | dir es =>
      rw [mkdirp_nil_dir] at h
      injection h with h'
      exact ⟨es, by rw [← h']; rfl⟩
    | file c => exact absurd h (by simp [mkdirp])
    | link t => exact absurd h (by simp [mkdirp])
  | cons s rest ih =>
    cases n with
    | file c => rw [mkdirp_cons_file] at h; exact Except.noConfusion h
    | link t => rw [mkdirp_cons_link] at h; exact Except.noConfusion h
    | dir es =>
      rw [mkdirp_cons_dir] at h
      split at h
      · rename_i c hf
        split at h
        · exact Except.noConfusion h
        · rename_i c' hm
          injection h with h'
          obtain ⟨es₁, hes⟩ := ih hm
          refine ⟨es₁, ?_⟩
          rw [← h', lookup_dir_cons_some (findEntry_replaceEntry_self hf)]
          exact hes
      · rename_i hf
        split at h
        · exact Except.noConfusion h
        · rename_i c' hm
          injection h with h'
          obtain ⟨es₁, hes⟩ := ih hm
          have hfind : findEntry (es ++ [(s, c')]) s = some c' := by
            rw [findEntry_append_right hf, findEntry_cons, if_pos rfl]
          refine ⟨es₁, ?_⟩
          rw [← h', lookup_dir_cons_some hfind]
          exact hes

theorem mkdirp_frame {n n' : FNode} {p q : FsPath}
    (h : mkdirp n p = .ok n') (hpq : isInit p q = false)
    (hqp : isInit q p = false) :
    FNode.lookup n' q = FNode.lookup n q := by
  induction p generalizing n n' q with
  | nil => exact absurd hpq (by simp [isInit])
  | cons s rest ih =>
    cases n with
    | file c => rw [mkdirp_cons_file] at h; exact Except.noConfusion h
    | link t => rw [mkdirp_cons_link] at h; exact Except.noConfusion h
    | dir es =>
      rw [mkdirp_cons_dir] at h
      cases q with
      | nil => exact absurd hqp (by simp [isInit])
      | cons s' q' =>
        by_cases hs : s = s'
        · subst hs
          rw [isInit_cons_cons] at hpq hqp
          split at h
          · rename_i c hf
            split at h
            · exact Except.noConfusion h
            · rename_i c' hm
              injection h with h'
              rw [← h', lookup_dir_cons_some (findEntry_replaceEntry_self hf),
                lookup_dir_cons_some hf]
              exact ih hm hpq hqp
          · rename_i hf
            split at h
            · exact Except.noConfusion h
            · rename_i c' hm
              injection h with h'
              have hfind : findEntry (es ++ [(s, c')]) s = some c' := by
                rw [findEntry_append_right hf, findEntry_cons, if_pos rfl]
              rw [← h', lookup_dir_cons_some hfind, lookup_dir_cons_none hf,
                ih hm hpq hqp]
              cases q' with
              | nil => exact absurd hqp (by simp [isInit])
              | cons x q'' => exact lookup_dir_cons_none findEntry_nil
        · have hs' : ¬ s' = s := fun hh => hs hh.symm
          split at h
          · rename_i c hf
            split at h
            · exact Except.noConfusion h
            · rename_i c' hm
              injection h with h'
              rw [← h', lookup_dir_cons, lookup_dir_cons,
                findEntry_replaceEntry_ne hs']
          · rename_i hf
            split at h
            · exact Except.noConfusion h
            · rename_i c' hm
              injection h with h'
              cases hfe : findEntry es s' with
              | some c₀ =>
                rw [← h', lookup_dir_cons, lookup_dir_cons, hfe,
                  findEntry_append_left hfe]
              | none =>
                rw [← h', lookup_dir_cons, lookup_dir_cons, hfe,
                  findEntry_append_right hfe, findEntry_cons, if_neg hs,
                  findEntry_nil]

theorem mkdirp_keeps_dir {n n' : FNode} {p q : FsPath}
    {e : List (String × FNode)} (h : mkdirp n p = .ok n')
    (hq : FNode.lookup n q = some (.dir e)) :
    ∃ e', FNode.lookup n' q = some (.dir e') := by
  induction p generalizing n n' q e with
  | nil =>
    cases n with
    | dir es =>
      rw [mkdirp_nil_dir] at h
      injection h with h'
      exact ⟨e, by rw [← h']; exact hq⟩
    | file c => exact absurd h (by simp [mkdirp])
    | link t => exact absurd h (by simp [mkdirp])
  | cons s rest ih =>
    cases n with
    | file c => rw [mkdirp_cons_file] at h; exact Except.noConfusion h
    | link t => rw [mkdirp_cons_link] at h; exact Except.noConfusion h
    | dir es =>
      rw [mkdirp_cons_dir] at h
      cases q with
      | nil =>
        split at h
        · split at h
          · exact Except.noConfusion h
          · rename_i c' hm
            injection h with h'
            exact ⟨_, by rw [← h']; rfl⟩
        · split at h
          · exact Except.noConfusion h
          · rename_i c' hm
            injection h with h'
            exact ⟨_, by rw [← h']; rfl⟩
      | cons s' q' =>
        by_cases hs : s = s'
        · subst hs
          split at h
          · rename_i c hf
            rw [lookup_dir_cons_some hf] at hq
            split at h
            · exact Except.noConfusion h
            · rename_i c' hm
              injection h with h'
              obtain ⟨e', he'⟩ := ih hm hq
              refine ⟨e', ?_⟩
              rw [← h', lookup_dir_cons_some (findEntry_replaceEntry_self hf)]
              exact he'
          · rename_i hf
            rw [lookup_dir_cons_none hf] at hq
            exact Option.noConfusion hq
        · have hs' : ¬ s' = s := fun hh => hs hh.symm
          rw [lookup_dir_cons] at hq
          split at h
          · rename_i c hf
            split at h
            · exact Except.noConfusion h
            · rename_i c' hm
              injection h with h'
              refine ⟨e, ?_⟩
              rw [← h', lookup_dir_cons, findEntry_replaceEntry_ne hs']
              exact hq
          · rename_i hf
            split at h
            · exact Except.noConfusion h
            · rename_i c' hm
              injection h with h'
              refine ⟨e, ?_⟩
              cases hfe : findEntry es s' with
              | some c₀ =>
                rw [← h', lookup_dir_cons, findEntry_append_left hfe]
                rw [hfe] at hq
                exact hq
              | none =>
                rw [hfe] at hq
                exact Option.noConfusion hq

theorem mkdirp_keeps_file {n n' : FNode} {p q : FsPath} {c₀ : String}
    (h : mkdirp n p = .ok n')
    (hq : FNode.lookup n q = some (.file c₀)) :
    FNode.lookup n' q = some (.file c₀) := by
  induction p generalizing n n' q with
  | nil =>
    cases n with
    | dir es =>
      rw [mkdirp_nil_dir] at h
      injection h with h'
      rw [← h']; exact hq
    | file c => exact absurd h (by simp [mkdirp])
    | link t => exact absurd h (by simp [mkdirp])
  | cons s rest ih =>
    cases n with
    | file c => rw [mkdirp_cons_file] at h; exact Except.noConfusion h
    | link t => rw [mkdirp_cons_link] at h; exact Except.noConfusion h
    | dir es =>
      rw [mkdirp_cons_dir] at h
      cases q with
      | nil =>
        rw [lookup_nil] at hq
        injection hq with hq'
        exact FNode.noConfusion hq'
      | cons s' q' =>
        by_cases hs : s = s'
        · subst hs
          split at h
          · rename_i c hf
            rw [lookup_dir_cons_some hf] at hq
            split at h
            · exact Except.noConfusion h
            · rename_i c' hm
              injection h with h'
              rw [← h', lookup_dir_cons_some (findEntry_replaceEntry_self hf)]
              exact ih hm hq
          · rename_i hf
            rw [lookup_dir_cons_none hf] at hq
            exact Option.noConfusion hq
        · have hs' : ¬ s' = s := fun hh => hs hh.symm
          rw [lookup_dir_cons] at hq
          split at h
          · rename_i c hf
            split at h
            · exact Except.noConfusion h
            · rename_i c' hm
              injection h with h'
              rw [← h', lookup_dir_cons, findEntry_replaceEntry_ne hs']
              exact hq
          · rename_i hf
            split at h
            · exact Except.noConfusion h
            · rename_i c' hm
              injection h with h'
              cases hfe : findEntry es s' with
              | some cc =>
                rw [← h', lookup_dir_cons, findEntry_append_left hfe]
                rw [hfe] at hq
                exact hq
              | none =>
                rw [hfe] at hq
                exact Option.noConfusion hq

theorem mkdirp_of_dirs {n : FNode} {p : FsPath} {e : List (String × FNode)}
    (h : FNode.lookup n p = some (.dir e)) : mkdirp n p = .ok n := by
  induction p generalizing n e with
  | nil =>
    rw [lookup_nil] at h
    injection h with h'
    rw [h']
    exact mkdirp_nil_dir
  | cons s rest ih =>
    cases n with
    | file c => exact Option.noConfusion (lookup_file_cons ▸ h)
    | link t => exact Option.noConfusion (lookup_link_cons ▸ h)
    | dir es =>
      cases hf : findEntry es s with
      | none => rw [lookup_dir_cons_none hf] at h; exact Option.noConfusion h
      | some c =>
        rw [lookup_dir_cons_some hf] at h
        simp only [mkdirp_cons_dir, hf, ih h, replaceEntry_self hf]

theorem mkdirp_err_of_link {n : FNode} {p : FsPath} {t : FsPath}
    (h : FNode.lookup n p = some (.link t)) :
    ∃ e, mkdirp n p = .error e := by
  induction p generalizing n with
  | nil =>
    rw [lookup_nil] at h
    injection h with h'
    rw [h']
    exact ⟨.eexist, rfl⟩
  | cons s rest ih =>
    cases n with
    | file c => exact ⟨.enotdir, mkdirp_cons_file⟩
    | link t' => exact ⟨.enotdir, mkdirp_cons_link⟩
    | dir es =>
      cases hf : findEntry es s with
      | none => rw [lookup_dir_cons_none hf] at h; exact Option.noConfusion h
      | some c =>
        rw [lookup_dir_cons_some hf] at h
        obtain ⟨e, he⟩ := ih h
        exact ⟨e, by simp only [mkdirp_cons_dir, hf, he]⟩

/-! ### writeAt lemmas -/

theorem writeAt_nil {n : FNode} {c : String} :
    writeAt n [] c = .error .eisdir := rfl

theorem writeAt_one_dir {es : List (String × FNode)} {s : String}
    {c : String} :
    writeAt (.dir es) [s] c =
      match findEntry es s with
      | some (.dir _) => .error .eisdir
      | some _ => .ok (.dir (replaceEntry es s (.file c)))
      | none => .ok (.dir (es ++ [(s, .file c)])) := rfl

theorem writeAt_one_file {c₀ c : String} {s : String} :
    writeAt (.file c₀) [s] c = .error .enotdir := rfl

theorem writeAt_one_link {t : FsPath} {s : String} {c : String} :
    writeAt (.link t) [s] c = .error .enotdir := rfl

theorem writeAt_cons2_dir {es : List (String × FNode)} {s r : String}
    {rest : FsPath} {c : String} :
    writeAt (.dir es) (s :: r :: rest) c =
      match findEntry es s with
      | some ch =>
        match writeAt ch (r :: rest) c with
        | .error e => .error e
        | .ok ch' => .ok (.dir (replaceEntry es s ch'))
      | none => .error .enoent := rfl

theorem writeAt_cons2_file {c₀ : String} {s r : String} {rest : FsPath}
    {c : String} : writeAt (.file c₀) (s :: r :: rest) c = .error .enotdir := rfl

theorem writeAt_cons2_link {t : FsPath} {s r : String} {rest : FsPath}
    {c : String} : writeAt (.link t) (s :: r :: rest) c = .error .enotdir := rfl

theorem writeAt_self {n n' : FNode} {p : FsPath} {c : String}
    (h : writeAt n p c = .ok n') : FNode.lookup n' p = some (.file c) := by
  induction p generalizing n n' with
  | nil => rw [writeAt_nil] at h; exact Except.noConfusion h
  | cons s rest ih =>
    cases rest with
    | nil =>
      cases n with
      | file c₀ => rw [writeAt_one_file] at h; exact Except.noConfusion h
      | link t => rw [writeAt_one_link] at h; exact Except.noConfusion h
      | dir es =>
        rw [writeAt_one_dir] at h
        split at h
        · exact Except.noConfusion h
        · rename_i x hf
          injection h with h'
          rw [← h',
            lookup_dir_cons_some (findEntry_replaceEntry_self hf), lookup_nil]
        · rename_i hf
          injection h with h'
          have hfind : findEntry (es ++ [(s, FNode.file c)]) s =
              some (.file c) := by
            rw [findEntry_append_right hf, findEntry_cons, if_pos rfl]
          rw [← h', lookup_dir_cons_some hfind, lookup_nil]
    | cons r rest' =>
      cases n with
      | file c₀ => rw [writeAt_cons2_file] at h; exact Except.noConfusion h
      | link t => rw [writeAt_cons2_link] at h; exact Except.noConfusion h
      | dir es =>
        rw [writeAt_cons2_dir] at h
        split at h
        · rename_i ch hf
          split at h
          · exact Except.noConfusion h
          · rename_i ch' hm
            injection h with h'
            rw [← h', lookup_dir_cons_some (findEntry_replaceEntry_self hf)]
            exact ih hm
        · exact Except.noConfusion h

theorem writeAt_frame {n n' : FNode} {p q : FsPath} {c : String}
    (h : writeAt n p c = .ok n') (hpq : isInit p q = false)
    (hqp : isInit q p = false) :
    FNode.lookup n' q = FNode.lookup n q := by
  induction p generalizing n n' q with
  | nil => rw [writeAt_nil] at h; exact Except.noConfusion h
  | cons s rest ih =>
    cases q with
    | nil => exact absurd hqp (by simp [isInit])
    | cons s' q' =>
      cases rest with
      | nil =>
        cases n with
        | file c₀ => rw [writeAt_one_file] at h; exact Except.noConfusion h
        | link t => rw [writeAt_one_link] at h; exact Except.noConfusion h
        | dir es =>
          rw [writeAt_one_dir] at h
          by_cases hs : s = s'
          · subst hs
            rw [isInit_cons_cons] at hpq
            exact absurd hpq (by simp [isInit])
          · have hs' : ¬ s' = s := fun hh => hs hh.symm
            split at h
            · exact Except.noConfusion h
            · rename_i x hf
              injection h with h'
              rw [← h', lookup_dir_cons, lookup_dir_cons,
                findEntry_replaceEntry_ne hs']
            · rename_i hf
              injection h with h'
              cases hfe : findEntry es s' with
              | some c₀ =>
                rw [← h', lookup_dir_cons, lookup_dir_cons, hfe,
                  findEntry_append_left hfe]
              | none =>
                rw [← h', lookup_dir_cons, lookup_dir_cons, hfe,
                  findEntry_append_right hfe, findEntry_cons, if_neg hs,
                  findEntry_nil]
      | cons r rest' =>
        cases n with
        | file c₀ => rw [writeAt_cons2_file] at h; exact Except.noConfusion h
        | link t => rw [writeAt_cons2_link] at h; exact Except.noConfusion h
        | dir es =>
          rw [writeAt_cons2_dir] at h
          split at h
          · rename_i ch hf
            split at h
            · exact Except.noConfusion h
            · rename_i ch' hm
              injection h with h'
              by_cases hs : s = s'
              · subst hs
                rw [isInit_cons_cons] at hpq hqp
                rw [← h',
                  lookup_dir_cons_some (findEntry_replaceEntry_self hf),
                  lookup_dir_cons_some hf]
                exact ih hm hpq hqp
              · have hs' : ¬ s' = s := fun hh => hs hh.symm
                rw [← h', lookup_dir_cons, lookup_dir_cons,
                  findEntry_replaceEntry_ne hs']
          · exact Except.noConfusion h

theorem writeAt_keeps_dir {n n' : FNode} {p q : FsPath} {c : String}
    {e : List (String × FNode)} (h : writeAt n p c = .ok n')
    (hq : FNode.lookup n q = some (.dir e)) :
    ∃ e', FNode.lookup n' q = some (.dir e') := by
  induction p generalizing n n' q e with
  | nil => rw [writeAt_nil] at h; exact Except.noConfusion h
  | cons s rest ih =>
    cases rest with
    | nil =>
      cases n with
      | file c₀ => rw [writeAt_one_file] at h; exact Except.noConfusion h
      | link t => rw [writeAt_one_link] at h; exact Except.noConfusion h
      | dir es =>
        rw [writeAt_one_dir] at h
        cases q with
        | nil =>
          split at h
          · exact Except.noConfusion h
          · rename_i x hf
            injection h with h'
            exact ⟨_, by rw [← h']; rfl⟩
          · injection h with h'
            exact ⟨_, by rw [← h']; rfl⟩
        | cons s' q' =>
          by_cases hs : s = s'
          · subst hs
            split at h
            · exact Except.noConfusion h
            · rename_i x hnd hf
              rw [lookup_dir_cons_some hf] at hq
              cases x with
              | dir es₁ => exact absurd rfl (hnd es₁)
              | file cc =>
                cases q' with
                | nil =>
                  rw [lookup_nil] at hq
                  injection hq with hq'
                  exact FNode.noConfusion hq'
                | cons y q'' =>
                  rw [lookup_file_cons] at hq
                  exact Option.noConfusion hq
              | link tt =>
                cases q' with
                | nil =>
                  rw [lookup_nil] at hq
                  injection hq with hq'
                  exact FNode.noConfusion hq'
                | cons y q'' =>
                  rw [lookup_link_cons] at hq
                  exact Option.noConfusion hq
            · rename_i hf
              rw [lookup_dir_cons_none hf] at hq
              exact Option.noConfusion hq
          · have hs' : ¬ s' = s := fun hh => hs hh.symm
            split at h
            · exact Except.noConfusion h
            · rename_i x hf
              injection h with h'
              refine ⟨e, ?_⟩
              rw [← h', lookup_dir_cons, findEntry_replaceEntry_ne hs']
              rw [lookup_dir_cons] at hq
              exact hq
            · rename_i hf
              injection h with h'
              rw [lookup_dir_cons] at hq
              cases hfe : findEntry es s' with
              | some c₀ =>
                refine ⟨e, ?_⟩
                rw [← h', lookup_dir_cons, findEntry_append_left hfe]
                rw [hfe] at hq
                exact hq
              | none =>
                rw [hfe] at hq
                exact Option.noConfusion hq
    | cons r rest' =>
      cases n with
      | file c₀ => rw [writeAt_cons2_file] at h; exact Except.noConfusion h
      | link t => rw [writeAt_cons2_link] at h; exact Except.noConfusion h
      | dir es =>
        rw [writeAt_cons2_dir] at h
        cases q with
        | nil =>
          split at h
          · rename_i ch hf
            split at h
            · exact Except.noConfusion h
            · rename_i ch' hm
              injection h with h'
              exact ⟨_, by rw [← h']; rfl⟩
          · exact Except.noConfusion h
        | cons s' q' =>
          split at h
          · rename_i ch hf
            split at h
            · exact Except.noConfusion h
            · rename_i ch' hm
              injection h with h'
              by_cases hs : s = s'
              · subst hs
                rw [lookup_dir_cons_some hf] at hq
                obtain ⟨e', he'⟩ := ih hm hq
                refine ⟨e', ?_⟩
                rw [← h',
                  lookup_dir_cons_some (findEntry_replaceEntry_self hf)]
                exact he'
              · have hs' : ¬ s' = s := fun hh => hs hh.symm
                refine ⟨e, ?_⟩
                rw [← h', lookup_dir_cons, findEntry_replaceEntry_ne hs']
                rw [lookup_dir_cons] at hq
                exact hq
          · exact Except.noConfusion h

/-! ### createAt lemmas -/

theorem createAt_nil {n v : FNode} : createAt n [] v = .error .eexist := rfl

theorem createAt_one_dir {es : List (String × FNode)} {s : String}
    {v : FNode} :
    createAt (.dir es) [s] v =
      match findEntry es s with
      | some _ => .error .eexist
      | none => .ok (.dir (es ++ [(s, v)])) := rfl

theorem createAt_one_file {c₀ : String} {s : String} {v : FNode} :
    createAt (.file c₀) [s] v = .error .enotdir := rfl

theorem createAt_one_link {t : FsPath} {s : String} {v : FNode} :
    createAt (.link t) [s] v = .error .enotdir := rfl

theorem createAt_cons2_dir {es : List (String × FNode)} {s r : String}
    {rest : FsPath} {v : FNode} :
    createAt (.dir es) (s :: r :: rest) v =
      match findEntry es s with
      | some ch =>
        match createAt ch (r :: rest) v with
        | .error e => .error e
        | .ok ch' => .ok (.dir (replaceEntry es s ch'))
      | none => .error .enoent := rfl

theorem createAt_cons2_file {c₀ : String} {s r : String} {rest : FsPath}
    {v : FNode} : createAt (.file c₀) (s :: r :: rest) v = .error .enotdir := rfl

theorem createAt_cons2_link {t : FsPath} {s r : String} {rest : FsPath}
    {v : FNode} : createAt (.link t) (s :: r :: rest) v = .error .enotdir := rfl

theorem createAt_self {n n' v : FNode} {p : FsPath}
    (h : createAt n p v = .ok n') : FNode.lookup n' p = some v := by
  induction p generalizing n n' with
  | nil => rw [createAt_nil] at h; exact Except.noConfusion h
  | cons s rest ih =>
    cases rest with
    | nil =>
      cases n with
      | file c₀ => rw [createAt_one_file] at h; exact Except.noConfusion h
      | link t => rw [createAt_one_link] at h; exact Except.noConfusion h
      | dir es =>
        rw [createAt_one_dir] at h
        split at h
        · exact Except.noConfusion h
        · rename_i hf
          injection h with h'
          have hfind : findEntry (es ++ [(s, v)]) s = some v := by
            rw [findEntry_append_right hf, findEntry_cons, if_pos rfl]
          rw [← h', lookup_dir_cons_some hfind, lookup_nil]
    | cons r rest' =>
      cases n with
      | file c₀ => rw [createAt_cons2_file] at h; exact Except.noConfusion h
      | link t => rw [createAt_cons2_link] at h; exact Except.noConfusion h
      | dir es =>
        rw [createAt_cons2_dir] at h
        split at h
        · rename_i ch hf
          split at h
          · exact Except.noConfusion h
          · rename_i ch' hm
            injection h with h'
            rw [← h', lookup_dir_cons_some (findEntry_replaceEntry_self hf)]
            exact ih hm
        · exact Except.noConfusion h

theorem createAt_frame {n n' v : FNode} {p q : FsPath}
    (h : createAt n p v = .ok n') (hpq : isInit p q = false)
    (hqp : isInit q p = false) :
    FNode.lookup n' q = FNode.lookup n q := by
  induction p generalizing n n' q with
  | nil => rw [createAt_nil] at h; exact Except.noConfusion h
  | cons s rest ih =>
    cases q with
    | nil => exact absurd hqp (by simp [isInit])
    | cons s' q' =>
      cases rest with
      | nil =>
        cases n with
        | file c₀ => rw [createAt_one_file] at h; exact Except.noConfusion h
        | link t => rw [createAt_one_link] at h; exact Except.noConfusion h
        | dir es =>
          rw [createAt_one_dir] at h
          by_cases hs : s = s'
          · subst hs
            rw [isInit_cons_cons] at hpq
            exact absurd hpq (by simp [isInit])
          · have hs' : ¬ s' = s := fun hh => hs hh.symm
            split at h
            · exact Except.noConfusion h
            · rename_i hf
              injection h with h'
              cases hfe : findEntry es s' with
              | some c₀ =>
                rw [← h', lookup_dir_cons, lookup_dir_cons, hfe,
                  findEntry_append_left hfe]
              | none =>
                rw [← h', lookup_dir_cons, lookup_dir_cons, hfe,
                  findEntry_append_right hfe, findEntry_cons, if_neg hs,
                  findEntry_nil]
      | cons r rest' =>
        cases n with
        | file c₀ => rw [createAt_cons2_file] at h; exact Except.noConfusion h
        | link t => rw [createAt_cons2_link] at h; exact Except.noConfusion h
        | dir es =>
          rw [createAt_cons2_dir] at h
          split at h
          · rename_i ch hf
            split at h
            · exact Except.noConfusion h
            · rename_i ch' hm
              injection h with h'
              by_cases hs : s = s'
              · subst hs
                rw [isInit_cons_cons] at hpq hqp
                rw [← h',
                  lookup_dir_cons_some (findEntry_replaceEntry_self hf),
                  lookup_dir_cons_some hf]
                exact ih hm hpq hqp
              · have hs' : ¬ s' = s := fun hh => hs hh.symm
                rw [← h', lookup_dir_cons, lookup_dir_cons,
                  findEntry_replaceEntry_ne hs']
          · exact Except.noConfusion h

theorem createAt_keeps_dir {n n' v : FNode} {p q : FsPath}
    {e : List (String × FNode)} (h : createAt n p v = .ok n')
    (hq : FNode.lookup n q = some (.dir e)) :
    ∃ e', FNode.lookup n' q = some (.dir e') := by
  induction p generalizing n n' q e with
  | nil => rw [createAt_nil] at h; exact Except.noConfusion h
  | cons s rest ih =>
    cases rest with
    | nil =>
      cases n with
      | file c₀ => rw [createAt_one_file] at h; exact Except.noConfusion h
      | link t => rw [createAt_one_link] at h; exact Except.noConfusion h
      | dir es =>
        rw [createAt_one_dir] at h
        split at h
        · exact Except.noConfusion h
        · rename_i hf
          injection h with h'
          cases q with
          | nil => exact ⟨_, by rw [← h']; rfl⟩
          | cons s' q' =>
            by_cases hs : s = s'
            · subst hs
              rw [lookup_dir_cons_none hf] at hq
              exact Option.noConfusion hq
            · have hs' : ¬ s' = s := fun hh => hs hh.symm
              rw [lookup_dir_cons] at hq
              cases hfe : findEntry es s' with
              | some c₀ =>
                refine ⟨e, ?_⟩
                rw [← h', lookup_dir_cons, findEntry_append_left hfe]
                rw [hfe] at hq
                exact hq
              | none =>
                rw [hfe] at hq
                exact Option.noConfusion hq
    | cons r rest' =>
      cases n with
      | file c₀ => rw [createAt_cons2_file] at h; exact Except.noConfusion h
      | link t => rw [createAt_cons2_link] at h; exact Except.noConfusion h
      | dir es =>
        rw [createAt_cons2_dir] at h
        split at h
        · rename_i ch hf
          split at h
          · exact Except.noConfusion h
          · rename_i ch' hm
            injection h with h'
            cases q with
            | nil => exact ⟨_, by rw [← h']; rfl⟩
            | cons s' q' =>
              by_cases hs : s = s'
              · subst hs
                rw [lookup_dir_cons_some hf] at hq
                obtain ⟨e', he'⟩ := ih hm hq
                refine ⟨e', ?_⟩
                rw [← h',
                  lookup_dir_cons_some (findEntry_replaceEntry_self hf)]
                exact he'
              · have hs' : ¬ s' = s := fun hh => hs hh.symm
                refine ⟨e, ?_⟩
                rw [← h', lookup_dir_cons, findEntry_replaceEntry_ne hs']
                rw [lookup_dir_cons] at hq
                exact hq
        · exact Except.noConfusion h

theorem createAt_keeps_file {n n' v : FNode} {p q : FsPath} {c₀ : String}
    (h : createAt n p v = .ok n')
    (hq : FNode.lookup n q = some (.file c₀)) :
    FNode.lookup n' q = some (.file c₀) := by
  induction p generalizing n n' q with
  | nil => rw [createAt_nil] at h; exact Except.noConfusion h
  | cons s rest ih =>
    cases rest with
    | nil =>
      cases n with
      | file cc => rw [createAt_one_file] at h; exact Except.noConfusion h
      | link t => rw [createAt_one_link] at h; exact Except.noConfusion h
      | dir es =>
        rw [createAt_one_dir] at h
        split at h
        · exact Except.noConfusion h
        · rename_i hf
          injection h with h'
          cases q with
          | nil =>
            rw [lookup_nil] at hq
            injection hq with hq'
            exact FNode.noConfusion hq'
          | cons s' q' =>
            by_cases hs : s = s'
            · subst hs
              rw [lookup_dir_cons_none hf] at hq
              exact Option.noConfusion hq
            · have hs' : ¬ s' = s := fun hh => hs hh.symm
              rw [lookup_dir_cons] at hq
              cases hfe : findEntry es s' with
              | some cc =>
                rw [← h', lookup_dir_cons, findEntry_append_left hfe]
                rw [hfe] at hq
                exact hq
              | none =>
                rw [hfe] at hq
                exact Option.noConfusion hq
    | cons r rest' =>
      cases n with
      | file cc => rw [createAt_cons2_file] at h; exact Except.noConfusion h
      | link t => rw [createAt_cons2_link] at h; exact Except.noConfusion h
      | dir es =>
        rw [createAt_cons2_dir] at h
        split at h
        · rename_i ch hf
          split at h
          · exact Except.noConfusion h
          · rename_i ch' hm
            injection h with h'
            cases q with
            | nil =>
              rw [lookup_nil] at hq
              injection hq with hq'
              exact FNode.noConfusion hq'
            | cons s' q' =>
              by_cases hs : s = s'
              · subst hs
                rw [lookup_dir_cons_some hf] at hq
                rw [← h',
                  lookup_dir_cons_some (findEntry_replaceEntry_self hf)]
                exact ih hm hq
              · have hs' : ¬ s' = s := fun hh => hs hh.symm
                rw [← h', lookup_dir_cons, findEntry_replaceEntry_ne hs']
                rw [lookup_dir_cons] at hq
                exact hq
        · exact Except.noConfusion h

/-! ### removeAt lemmas -/

theorem removeAt_nil {n : FNode} : removeAt n [] = n := rfl

theorem removeAt_one_dir {es : List (String × FNode)} {s : String} :
    removeAt (.dir es) [s] = .dir (removeEntry es s) := rfl

theorem removeAt_one_file {c : String} {s : String} :
    removeAt (.file c) [s] = .file c := rfl

theorem removeAt_one_link {t : FsPath} {s : String} :
    removeAt (.link t) [s] = .link t := rfl

theorem removeAt_cons2_dir {es : List (String × FNode)} {s r : String}
    {rest : FsPath} :
    removeAt (.dir es) (s :: r :: rest) =
      match findEntry es s with
      | some ch => .dir (replaceEntry es s (removeAt ch (r :: rest)))
      | none => .dir es := rfl

theorem removeAt_cons2_file {c : String} {s r : String} {rest : FsPath} :
    removeAt (.file c) (s :: r :: rest) = .file c := rfl

theorem removeAt_cons2_link {t : FsPath} {s r : String} {rest : FsPath} :
    removeAt (.link t) (s :: r :: rest) = .link t := rfl

theorem removeAt_lookup_self {n : FNode} {p : FsPath} (hp : p ≠ []) :
    FNode.lookup (removeAt n p) p = none := by
  induction p generalizing n with
  | nil => exact absurd rfl hp
  | cons s rest ih =>
    cases rest with
    | nil =>
      cases n with
      | file c => rw [removeAt_one_file, lookup_file_cons]
      | link t => rw [removeAt_one_link, lookup_link_cons]
      | dir es =>
        rw [removeAt_one_dir, lookup_dir_cons_none findEntry_removeEntry_self]
    | cons r rest' =>
      cases n with
      | file c => rw [removeAt_cons2_file, lookup_file_cons]
      | link t => rw [removeAt_cons2_link, lookup_link_cons]
      | dir es =>
        cases hf : findEntry es s with
        | some ch =>
          simp only [removeAt_cons2_dir, hf]
          rw [lookup_dir_cons_some (findEntry_replaceEntry_self hf)]
          exact ih (by simp)
        | none =>
          simp only [removeAt_cons2_dir, hf]
          rw [lookup_dir_cons_none hf]

theorem removeAt_frame {n : FNode} {p q : FsPath}
    (hpq : isInit p q = false) (hqp : isInit q p = false) :
    FNode.lookup (removeAt n p) q = FNode.lookup n q := by
  induction p generalizing n q with
  | nil => rw [removeAt_nil]
  | cons s rest ih =>
    cases q with
    | nil => exact absurd hqp (by simp [isInit])
    | cons s' q' =>
      cases rest with
      | nil =>
        cases n with
        | file c => rw [removeAt_one_file]
        | link t => rw [removeAt_one_link]
        | dir es =>
          by_cases hs : s = s'
          · subst hs
            rw [isInit_cons_cons] at hpq
            exact absurd hpq (by simp [isInit])
          · have hs' : ¬ s' = s := fun hh => hs hh.symm
            rw [removeAt_one_dir, lookup_dir_cons, lookup_dir_cons,
              findEntry_removeEntry_ne hs']
      | cons r rest' =>
        cases n with
        | file c => rw [removeAt_cons2_file]
        | link t => rw [removeAt_cons2_link]
        | dir es =>
          cases hf : findEntry es s with
          | some ch =>
            simp only [removeAt_cons2_dir, hf]
            by_cases hs : s = s'
            · subst hs
              rw [isInit_cons_cons] at hpq hqp
              rw [lookup_dir_cons_some (findEntry_replaceEntry_self hf),
                lookup_dir_cons_some hf]
              exact ih hpq hqp
            · have hs' : ¬ s' = s := fun hh => hs hh.symm
              rw [lookup_dir_cons, lookup_dir_cons,
                findEntry_replaceEntry_ne hs']
          | none => simp only [removeAt_cons2_dir, hf]

theorem removeAt_keeps_dir {n : FNode} {p q : FsPath}
    {e : List (String × FNode)} (hpq : isInit p q = false)
    (hq : FNode.lookup n q = some (.dir e)) :
    ∃ e', FNode.lookup (removeAt n p) q = some (.dir e') := by
  induction p generalizing n q e with
  | nil => exact absurd hpq (by simp [isInit])
  | cons s rest ih =>
    cases rest with
    | nil =>
      cases n with
      | file c => exact ⟨e, by rw [removeAt_one_file]; exact hq⟩
      | link t => exact ⟨e, by rw [removeAt_one_link]; exact hq⟩
      | dir es =>
        cases q with
        | nil =>
          exact ⟨removeEntry es s, by rw [removeAt_one_dir, lookup_nil]⟩
        | cons s' q' =>
          by_cases hs : s = s'
          · subst hs
            rw [isInit_cons_cons] at hpq
            exact absurd hpq (by simp [isInit])
          · have hs' : ¬ s' = s := fun hh => hs hh.symm
            refine ⟨e, ?_⟩
            rw [removeAt_one_dir, lookup_dir_cons,
              findEntry_removeEntry_ne hs']
            rw [lookup_dir_cons] at hq
            exact hq
    | cons r rest' =>
      cases n with
      | file c => exact ⟨e, by rw [removeAt_cons2_file]; exact hq⟩
      | link t => exact ⟨e, by rw [removeAt_cons2_link]; exact hq⟩
      | dir es =>
        cases q with
        | nil =>
          rw [lookup_nil] at hq
          injection hq with hq'
          cases hf : findEntry es s with
          | some ch =>
            refine ⟨replaceEntry es s (removeAt ch (r :: rest')), ?_⟩
            simp only [removeAt_cons2_dir, hf, ← hq', lookup_nil]
          | none =>
            refine ⟨es, ?_⟩
            simp only [removeAt_cons2_dir, hf, lookup_nil]
        | cons s' q' =>
          cases hf : findEntry es s with
          | some ch =>
            simp only [removeAt_cons2_dir, hf]
            by_cases hs : s = s'
            · subst hs
              rw [isInit_cons_cons] at hpq
              rw [lookup_dir_cons_some hf] at hq
              obtain ⟨e', he'⟩ := ih hpq hq
              refine ⟨e', ?_⟩
              rw [lookup_dir_cons_some (findEntry_replaceEntry_self hf)]
              exact he'
            · have hs' : ¬ s' = s := fun hh => hs hh.symm
              refine ⟨e, ?_⟩
              rw [lookup_dir_cons, findEntry_replaceEntry_ne hs']
              rw [lookup_dir_cons] at hq
              exact hq
          | none =>
            refine ⟨e, ?_⟩
            simp only [removeAt_cons2_dir, hf]
            exact hq

theorem removeAt_keeps_file {n : FNode} {p q : FsPath} {c₀ : String}
    (hpq : isInit p q = false)
    (hq : FNode.lookup n q = some (.file c₀)) :
    FNode.lookup (removeAt n p) q = some (.file c₀) := by
  induction p generalizing n q with
  | nil => exact absurd hpq (by simp [isInit])
  | cons s rest ih =>
    cases rest with
    | nil =>
      cases n with
      | file c => rw [removeAt_one_file]; exact hq
      | link t => rw [removeAt_one_link]; exact hq
      | dir es =>
        cases q with
        | nil =>
          rw [lookup_nil] at hq
          injection hq with hq'
          exact FNode.noConfusion hq'
        | cons s' q' =>
          by_cases hs : s = s'
          · subst hs
            rw [isInit_cons_cons] at hpq
            exact absurd hpq (by simp [isInit])
          · have hs' : ¬ s' = s := fun hh => hs hh.symm
            rw [removeAt_one_dir, lookup_dir_cons,
              findEntry_removeEntry_ne hs']
            rw [lookup_dir_cons] at hq
            exact hq
    | cons r rest' =>
      cases n with
      | file c => rw [removeAt_cons2_file]; exact hq
      | link t => rw [removeAt_cons2_link]; exact hq
      | dir es =>
        cases q with
        | nil =>
          rw [lookup_nil] at hq
          injection hq with hq'
          exact FNode.noConfusion hq'
        | cons s' q' =>
          cases hf : findEntry es s with
          | some ch =>
            simp only [removeAt_cons2_dir, hf]
            by_cases hs : s = s'
            · subst hs
              rw [isInit_cons_cons] at hpq
              rw [lookup_dir_cons_some hf] at hq
              rw [lookup_dir_cons_some (findEntry_replaceEntry_self hf)]
              exact ih hpq hq
            · have hs' : ¬ s' = s := fun hh => hs hh.symm
              rw [lookup_dir_cons, findEntry_replaceEntry_ne hs']
              rw [lookup_dir_cons] at hq
              exact hq
          | none =>
            simp only [removeAt_cons2_dir, hf]
            exact hq

/-! ### Trace helpers for deployLink -/

theorem lstatSync_eq {fs : FS} {p : FsPath} {n : FNode}
    (he : fs.errs = []) (h : FNode.lookup fs.root p = some n) :
    lstatSync fs p = .ok n := by
  unfold lstatSync
  rw [he, h]
  simp

theorem copyFileSync_ok_decomp {fs fs' : FS} {src dest : FsPath}
    (h : copyFileSync fs src dest = .ok fs') :
    fs'.errs = fs.errs ∧
      ∃ c w, writeAt fs.root dest c = .ok w ∧ fs'.root = w := by
  unfold copyFileSync at h
  split at h
  · exact Except.noConfusion h
  · split at h
    · rename_i c hf
      split at h
      · exact Except.noConfusion h
      · rename_i w hw
        injection h with h'
        refine ⟨by rw [← h'], c, w, hw, by rw [← h']⟩
    · exact Except.noConfusion h
    · exact Except.noConfusion h
    · exact Except.noConfusion h

theorem copyFileSync_file_run {fs : FS} {src dest : FsPath} {c : String}
    (he : fs.errs = []) (hsrc : FNode.lookup fs.root src = some (.file c)) :
    copyFileSync fs src dest =
      match writeAt fs.root dest c with
      | .error e => .error e
      | .ok r => .ok ⟨r, fs.errs⟩ := by
  unfold copyFileSync
  rw [he]
  have h32 : followLinks fs.root 32 src = some (.file c) :=
    followLinks_file hsrc
  simp [h32]

theorem writeAt_dir_err {n : FNode} {p : FsPath} {c : String}
    {e : List (String × FNode)} (h : FNode.lookup n p = some (.dir e)) :
    ∃ er, writeAt n p c = .error er := by
  induction p generalizing n e with
  | nil => exact ⟨.eisdir, writeAt_nil⟩
  | cons s rest ih =>
    cases rest with
    | nil =>
      cases n with
      | file c₀ => exact ⟨.enotdir, writeAt_one_file⟩
      | link t => exact ⟨.enotdir, writeAt_one_link⟩
      | dir es =>
        cases hf : findEntry es s with
        | none => rw [lookup_dir_cons_none hf] at h; exact Option.noConfusion h
        | some x =>
          rw [lookup_dir_cons_some hf, lookup_nil] at h
          injection h with h'
          exact ⟨.eisdir, by simp only [writeAt_one_dir, hf, h']⟩
    | cons r rest' =>
      cases n with
      | file c₀ => exact ⟨.enotdir, writeAt_cons2_file⟩
      | link t => exact ⟨.enotdir, writeAt_cons2_link⟩
      | dir es =>
        cases hf : findEntry es s with
        | none => rw [lookup_dir_cons_none hf] at h; exact Option.noConfusion h
        | some ch =>
          rw [lookup_dir_cons_some hf] at h
          obtain ⟨er, her⟩ := ih h
          exact ⟨er, by simp only [writeAt_cons2_dir, hf, her]⟩

theorem mkdirp_keeps_link {n n' : FNode} {p q : FsPath} {t : FsPath}
    (h : mkdirp n p = .ok n')
    (hq : FNode.lookup n q = some (.link t)) :
    FNode.lookup n' q = some (.link t) := by
  induction p generalizing n n' q with
  | nil =>
    cases n with
    | dir es =>
      rw [mkdirp_nil_dir] at h
      injection h with h'
      rw [← h']; exact hq
    | file c => exact absurd h (by simp [mkdirp])
    | link t' => exact absurd h (by simp [mkdirp])
  | cons s rest ih =>
    cases n with
    | file c => rw [mkdirp_cons_file] at h; exact Except.noConfusion h
    | link t' => rw [mkdirp_cons_link] at h; exact Except.noConfusion h
    | dir es =>
      rw [mkdirp_cons_dir] at h
      cases q with
      | nil =>
        rw [lookup_nil] at hq
        injection hq with hq'
        exact FNode.noConfusion hq'
      | cons s' q' =>
        by_cases hs : s = s'
        · subst hs
          split at h
          · rename_i c hf
            rw [lookup_dir_cons_some hf] at hq
            split at h
            · exact Except.noConfusion h
            · rename_i c' hm
              injection h with h'
              rw [← h', lookup_dir_cons_some (findEntry_replaceEntry_self hf)]
              exact ih hm hq
          · rename_i hf
            rw [lookup_dir_cons_none hf] at hq
            exact Option.noConfusion hq
        · have hs' : ¬ s' = s := fun hh => hs hh.symm
          rw [lookup_dir_cons] at hq
          split at h
          · rename_i c hf
            split at h
            · exact Except.noConfusion h
            · rename_i c' hm
              injection h with h'
              rw [← h', lookup_dir_cons, findEntry_replaceEntry_ne hs']
              exact hq
          · rename_i hf
            split at h
            · exact Except.noConfusion h
            · rename_i c' hm
              injection h with h'
              cases hfe : findEntry es s' with
              | some cc =>
                rw [← h', lookup_dir_cons, findEntry_append_left hfe]
                rw [hfe] at hq
                exact hq
              | none =>
                rw [hfe] at hq
                exact Option.noConfusion hq

theorem createAt_err_of_some {n m v : FNode} {p : FsPath}
    (h : FNode.lookup n p = some m) :
    ∃ er, createAt n p v = .error er := by
  induction p generalizing n m with
  | nil => exact ⟨.eexist, createAt_nil⟩
  | cons s rest ih =>
    cases rest with
    | nil =>
      cases n with
      | file c₀ => exact ⟨.enotdir, createAt_one_file⟩
      | link t => exact ⟨.enotdir, createAt_one_link⟩
      | dir es =>
        cases hf : findEntry es s with
        | none => rw [lookup_dir_cons_none hf] at h; exact Option.noConfusion h
        | some x => exact ⟨.eexist, by simp only [createAt_one_dir, hf]⟩
    | cons r rest' =>
      cases n with
      | file c₀ => exact ⟨.enotdir, createAt_cons2_file⟩
      | link t => exact ⟨.enotdir, createAt_cons2_link⟩
      | dir es =>
        cases hf : findEntry es s with
        | none => rw [lookup_dir_cons_none hf] at h; exact Option.noConfusion h
        | some ch =>
          rw [lookup_dir_cons_some hf] at h
          obtain ⟨er, her⟩ := ih h
          exact ⟨er, by simp only [createAt_cons2_dir, hf, her]⟩

theorem linkCreate_ne_exit0 {pr target : FsPath} {fsX : FS} :
    (linkCreate pr target fsX).2 ≠ .exited 0 := by
  unfold linkCreate
  split
  · simp
  · split
    · intro hc
      simp only [Prod.snd] at hc
      injection hc with hc'
      exact Nat.noConfusion hc'
    · simp

/-! ## C4 -/

/-- Claim C4: if the target path is a real directory containing the backup
file `data.json` with content `X`, then after a successful link-mode
deployment the artifact root holds `data.json` with content `X` (a stale
backup there is overwritten — the write replaces any previous file), and
the target is a symbolic link to the artifact directory.  The hypothesis
`hnest` records that the target is not a path prefix of the artifact
directory (the artifact is not nested inside the target, which the data
model's ownership of SourceArtifact presupposes). -/
theorem C4_data_preservation (pr vault : FsPath) (pid : String)
    (fs fs' : FS) (X : String) (es : List (String × FNode))
    (he : fs.errs = [])
    (hdir : FNode.lookup fs.root (targetPluginDir vault pid) = some (.dir es))
    (hdj : FNode.lookup fs.root (targetPluginDir vault pid ++ ["data.json"]) =
      some (.file X))
    (hnest : isInit (targetPluginDir vault pid) (distDir pr) = false)
    (hrun : deployLink pr vault pid fs = (fs', .normal)) :
    FNode.lookup fs'.root (distDir pr ++ ["data.json"]) = some (.file X) ∧
    FNode.lookup fs'.root (targetPluginDir vault pid) =
      some (.link (distDir pr)) := by
  unfold deployLink at hrun
  split at hrun
  · exact absurd (congrArg Prod.snd hrun) (by simp)
  · rename_i hg
    split at hrun
    case isFalse hex => exact absurd (existsSync_of_dir he hdir) hex
    case isTrue hex =>
      split at hrun
      · rename_i e heq
        rw [lstatSync_eq he hdir] at heq
        exact Except.noConfusion heq
      · rename_i t heq
        rw [lstatSync_eq he hdir] at heq
        injection heq with heq'
        exact FNode.noConfusion heq'
      · rename_i es₂ heq
        split at hrun
        case isFalse hdx => exact absurd (existsSync_of_file he hdj) hdx
        case isTrue hdx =>
          rw [copyFileSync_file_run he hdj] at hrun
          split at hrun
          · exact absurd (congrArg Prod.snd hrun) (by simp)
          · rename_i fs1 hcp
            split at hcp
            · exact Except.noConfusion hcp
            · rename_i w hw
              injection hcp with hcp'
              have hInit2 : isInit (targetPluginDir vault pid)
                  (distDir pr ++ ["data.json"]) = false := by
                by_contra hc
                have hc' : isInit (targetPluginDir vault pid)
                    (distDir pr ++ ["data.json"]) = true := by
                  revert hc
                  cases isInit (targetPluginDir vault pid)
                    (distDir pr ++ ["data.json"]) <;> simp
                rcases isInit_snoc hc' with h1 | h1
                · rw [h1] at hnest; exact Bool.noConfusion hnest
                · obtain ⟨er, her⟩ := writeAt_dir_err (c := X) hdir
                  rw [← h1, her] at hw
                  exact Except.noConfusion hw
              have hw1 : FNode.lookup fs1.root
                  (distDir pr ++ ["data.json"]) = some (.file X) := by
                rw [← hcp']
                exact writeAt_self hw
              unfold linkCreate at hrun
              split at hrun
              · exact absurd (congrArg Prod.snd hrun) (by simp)
              · rename_i mr hmk
                split at hrun
                · exact absurd (congrArg Prod.snd hrun) (by simp)
                · rename_i mr' hcr
                  have hfs' : FS.mk mr' fs1.errs = fs' :=
                    congrArg Prod.fst hrun
                  have hrm : FNode.lookup
                      (removeAt fs1.root (targetPluginDir vault pid))
                      (distDir pr ++ ["data.json"]) = some (.file X) :=
                    removeAt_keeps_file hInit2 hw1
                  have hmkf : FNode.lookup mr
                      (distDir pr ++ ["data.json"]) = some (.file X) :=
                    mkdirp_keeps_file hmk hrm
                  have hcrf : FNode.lookup mr'
                      (distDir pr ++ ["data.json"]) = some (.file X) :=
                    createAt_keeps_file hcr hmkf
                  have hlink : FNode.lookup mr'
                      (targetPluginDir vault pid) =
                      some (.link (distDir pr)) := createAt_self hcr
                  rw [← hfs']
                  exact ⟨hcrf, hlink⟩
      · rename_i c₀ heq
        rw [lstatSync_eq he hdir] at heq
        injection heq with heq'
        exact FNode.noConfusion heq'

/-- Witness for C4 at a concrete filesystem: project root `pr`, vault `v`,
plugin id `p`, target directory holding `data.json` with content `X`. -/
theorem C4_witness :
    FNode.lookup (FS.mk (.dir [("pr", .dir [("dist",
        .dir [("data.json", .file "X")])]),
      ("v", .dir [(".obsidian", .dir [("plugins",
        .dir [("p", .link ["pr", "dist"])])])])]) []).root
      (distDir ["pr"] ++ ["data.json"]) = some (.file "X") ∧
    FNode.lookup (FS.mk (.dir [("pr", .dir [("dist",
        .dir [("data.json", .file "X")])]),
      ("v", .dir [(".obsidian", .dir [("plugins",
        .dir [("p", .link ["pr", "dist"])])])])]) []).root
      (targetPluginDir ["v"] "p") = some (.link (distDir ["pr"])) :=
  C4_data_preservation ["pr"] ["v"] "p"
    ⟨.dir [("pr", .dir [("dist", .dir [])]),
      ("v", .dir [(".obsidian", .dir [("plugins",
        .dir [("p", .dir [("data.json", .file "X")])])])])], []⟩
    (FS.mk (.dir [("pr", .dir [("dist", .dir [("data.json", .file "X")])]),
      ("v", .dir [(".obsidian", .dir [("plugins",
        .dir [("p", .link ["pr", "dist"])])])])]) [])
    "X" [("data.json", .file "X")] rfl rfl rfl (by decide) rfl

/-! ## C5 -/

/-- After a successful link creation, a further link-mode run recognizes the
link to the artifact directory and reports success without mutating. -/
theorem linkCreate_converged {pr vault : FsPath} {pid : String}
    {F fs₁ : FS}
    (he₁ : F.errs = [])
    (hcanon : resolvePath (distDir pr) = distDir pr)
    (hg : ¬ resolvePath (targetPluginDir vault pid) = resolvePath (distDir pr))
    (e₀ : List (String × FNode))
    (hds : FNode.lookup F.root (distDir pr) = some (.dir e₀))
    (hlc : linkCreate pr (targetPluginDir vault pid) F = (fs₁, .normal)) :
    deployLink pr vault pid fs₁ = (fs₁, .normal) := by
  unfold linkCreate at hlc
  split at hlc
  · exact absurd (congrArg Prod.snd hlc) (by simp)
  · rename_i mr hmk
    split at hlc
    · exact absurd (congrArg Prod.snd hlc) (by simp)
    · rename_i mr' hcr
      have hfs₁ : FS.mk mr' F.errs = fs₁ := congrArg Prod.fst hlc
      have hlink : FNode.lookup fs₁.root (targetPluginDir vault pid) =
          some (.link (distDir pr)) := by
        rw [← hfs₁]; exact createAt_self hcr
      obtain ⟨e₂, hdist⟩ : ∃ e₂,
          FNode.lookup fs₁.root (distDir pr) = some (.dir e₂) := by
        obtain ⟨e₁, h₁⟩ := mkdirp_keeps_dir hmk hds
        obtain ⟨e₂, h₂⟩ := createAt_keeps_dir hcr h₁
        exact ⟨e₂, by rw [← hfs₁]; exact h₂⟩
      have he₂ : fs₁.errs = [] := by rw [← hfs₁]; exact he₁
      have hex : existsSync fs₁ (targetPluginDir vault pid) = true := by
        unfold existsSync
        rw [he₂]
        have h32 : followLinks fs₁.root 32 (targetPluginDir vault pid) =
            followLinks fs₁.root 31 (resolvePath (distDir pr)) :=
          followLinks_link hlink
        rw [hcanon] at h32
        have h31 : followLinks fs₁.root 31 (distDir pr) = some (.dir e₂) :=
          followLinks_dir hdist
        simp [h32, h31]
      unfold deployLink
      rw [if_neg hg]
      split
      · simp only [lstatSync_eq he₂ hlink]
        simp
      · rename_i hnx
        exact absurd hex hnx

/-- Claim C5: link-mode deployment is idempotent.  If a first run from a
state whose artifact directory exists (and is not nested inside the target,
per SourceArtifact ownership; the artifact path is canonical as produced by
`path.resolve`) succeeds — normally or through the benign self-target exit —
then a second run returns the same filesystem unchanged with the same
successful outcome: the existing link to the artifact is recognized. -/
theorem C5_link_idempotent (pr vault : FsPath) (pid : String)
    (fs fs₁ : FS) (r : StepResult) (ds : List (String × FNode))
    (he : fs.errs = [])
    (hcanon : resolvePath (distDir pr) = distDir pr)
    (hdist : FNode.lookup fs.root (distDir pr) = some (.dir ds))
    (hnest : isInit (targetPluginDir vault pid) (distDir pr) = false)
    (hrun : deployLink pr vault pid fs = (fs₁, r))
    (hok : r = .normal ∨ r = .exited 0) :
    deployLink pr vault pid fs₁ = (fs₁, r) := by
  unfold deployLink at hrun
  split at hrun
  · rename_i hg
    have h1 : fs = fs₁ := congrArg Prod.fst hrun
    have h2 : StepResult.exited 0 = r := congrArg Prod.snd hrun
    rw [← h1, ← h2]
    unfold deployLink
    rw [if_pos hg]
  · rename_i hg
    split at hrun
    case isTrue hex =>
      split at hrun
      · rename_i e heq
        have h2 := congrArg Prod.snd hrun
        rcases hok with h | h <;> rw [h] at h2 <;> exact absurd h2 (by simp)
      · rename_i t heq
        split at hrun
        · rename_i hres
          have h1 : fs = fs₁ := congrArg Prod.fst hrun
          have h2 : StepResult.normal = r := congrArg Prod.snd hrun
          rw [← h1, ← h2]
          unfold deployLink
          rw [if_neg hg]
          split
          · simp only [heq]
            rw [if_pos hres]
          · rename_i hnx
            exact absurd hex hnx
        · rename_i hres
          rcases hok with hr | hr
          · subst hr
            obtain ⟨e₂, h₂⟩ := removeAt_keeps_dir (n := fs.root) hnest hdist
            exact linkCreate_converged
              (F := ⟨removeAt fs.root (targetPluginDir vault pid), fs.errs⟩)
              he hcanon hg e₂ h₂ hrun
          · subst hr
            exact absurd (congrArg Prod.snd hrun) linkCreate_ne_exit0
      · rename_i es₂ heq
        split at hrun
        case isTrue hdx =>
          split at hrun
          · rename_i e hcp
            have h2 := congrArg Prod.snd hrun
            rcases hok with h | h <;> rw [h] at h2 <;>
              exact absurd h2 (by simp)
          · rename_i fs2 hcp
            obtain ⟨herrs, c, w, hw, hroot⟩ := copyFileSync_ok_decomp hcp
            rcases hok with hr | hr
            · subst hr
              obtain ⟨e₁, h₁⟩ : ∃ e₁,
                  FNode.lookup fs2.root (distDir pr) = some (.dir e₁) := by
                rw [hroot]
                exact writeAt_keeps_dir hw hdist
              obtain ⟨e₂, h₂⟩ := removeAt_keeps_dir (n := fs2.root) hnest h₁
              have he₂ : fs2.errs = [] := by rw [herrs]; exact he
              exact linkCreate_converged
                (F := ⟨removeAt fs2.root (targetPluginDir vault pid), fs2.errs⟩)
                he₂ hcanon hg e₂ h₂ hrun
            · subst hr
              exact absurd (congrArg Prod.snd hrun) linkCreate_ne_exit0
        case isFalse hdx =>
          rcases hok with hr | hr
          · subst hr
            obtain ⟨e₂, h₂⟩ := removeAt_keeps_dir (n := fs.root) hnest hdist
            exact linkCreate_converged
              (F := ⟨removeAt fs.root (targetPluginDir vault pid), fs.errs⟩)
              he hcanon hg e₂ h₂ hrun
          · subst hr
            exact absurd (congrArg Prod.snd hrun) linkCreate_ne_exit0
      · rename_i c₀ heq
        rcases hok with hr | hr
        · subst hr
          obtain ⟨e₂, h₂⟩ := removeAt_keeps_dir (n := fs.root) hnest hdist
          exact linkCreate_converged
            (F := ⟨removeAt fs.root (targetPluginDir vault pid), fs.errs⟩)
            he hcanon hg e₂ h₂ hrun
        · subst hr
          exact absurd (congrArg Prod.snd hrun) linkCreate_ne_exit0
    case isFalse hex =>
      have hexf : existsSync fs (targetPluginDir vault pid) = false := by
        revert hex
        cases existsSync fs (targetPluginDir vault pid) <;> simp
      rcases existsSync_false_cases he hexf with hnone | ⟨t, hlinkd⟩
      · rcases hok with hr | hr
        · subst hr
          exact linkCreate_converged he hcanon hg ds hdist hrun
        · subst hr
          exact absurd (congrArg Prod.snd hrun) linkCreate_ne_exit0
      · unfold linkCreate at hrun
        split at hrun
        · have h2 := congrArg Prod.snd hrun
          rcases hok with h | h <;> rw [h] at h2 <;> exact absurd h2 (by simp)
        · rename_i mr hmk
          have hlk : FNode.lookup mr (targetPluginDir vault pid) =
              some (.link t) := mkdirp_keeps_link hmk hlinkd
          obtain ⟨er, her⟩ :=
            createAt_err_of_some (v := .link (distDir pr)) hlk
          simp only [her] at hrun
          have h2 := congrArg Prod.snd hrun
          rcases hok with h | h <;> rw [h] at h2 <;> exact absurd h2 (by simp)

/-- Witness for C5: a first run on a concrete state replaces the target
directory with a link (backing up `data.json`), and the second run is a
no-op success on the same state. -/
theorem C5_witness :
    deployLink ["pr"] ["v"] "p"
      (FS.mk (.dir [("pr", .dir [("dist", .dir [("data.json", .file "X")])]),
        ("v", .dir [(".obsidian", .dir [("plugins",
          .dir [("p", .link ["pr", "dist"])])])])]) []) =
      ((FS.mk (.dir [("pr", .dir [("dist", .dir [("data.json", .file "X")])]),
        ("v", .dir [(".obsidian", .dir [("plugins",
          .dir [("p", .link ["pr", "dist"])])])])]) []), .normal) :=
  C5_link_idempotent ["pr"] ["v"] "p"
    ⟨.dir [("pr", .dir [("dist", .dir [])]),
      ("v", .dir [(".obsidian", .dir [("plugins",
        .dir [("p", .dir [("data.json", .file "X")])])])])], []⟩
    (FS.mk (.dir [("pr", .dir [("dist", .dir [("data.json", .file "X")])]),
      ("v", .dir [(".obsidian", .dir [("plugins",
        .dir [("p", .link ["pr", "dist"])])])])]) [])
    .normal [] rfl rfl rfl (by decide) rfl (Or.inl rfl)

/-! ## C2 and C6, amended -/

theorem ensureHotreload_frame (pr : FsPath) (fs : FS) (q : FsPath)
    (hq1 : isInit (distDir pr) q = false)
    (hq2 : isInit q (distDir pr) = false) :
    FNode.lookup (ensureHotreload pr fs).1.root q = FNode.lookup fs.root q := by
  unfold ensureHotreload
  split
  · rfl
  · split
    · rfl
    · rename_i r hw
      have ha : isInit (distDir pr ++ [".hotreload"]) q = false :=
        notInit_snoc_parent hq1
      have hb : isInit q (distDir pr ++ [".hotreload"]) = false :=
        notInit_parent_snoc hq1 hq2
      exact writeAt_frame hw ha hb

theorem ensureDistReady_frame (pr : FsPath) (fs : FS) (q : FsPath)
    (hq1 : isInit (distDir pr) q = false)
    (hq2 : isInit q (distDir pr) = false) :
    FNode.lookup (ensureDistReady pr fs).1.root q = FNode.lookup fs.root q := by
  unfold ensureDistReady
  split
  · exact ensureHotreload_frame pr fs q hq1 hq2
  · split
    · rfl
    · rename_i r hmk
      rw [ensureHotreload_frame pr ⟨r, fs.errs⟩ q hq1 hq2]
      exact mkdirp_frame hmk hq1 hq2

/-- Claim C2, amended: for every mode selector other than `"link"` and
`"copy"`, the run exits with failure status 1; the only filesystem mutation
it can have performed is the pre-dispatch `ensureDistReady` step (creating
the artifact directory and its `.hotreload` marker when absent) — every
path unrelated to the artifact directory is untouched, and in particular
the target is never copied to or removed. -/
theorem C2_unknown_mode_exits_1 (pr vault : FsPath) (pid mode : String)
    (fs : FS) (q : FsPath)
    (h1 : mode ≠ "link") (h2 : mode ≠ "copy")
    (hq1 : isInit (distDir pr) q = false)
    (hq2 : isInit q (distDir pr) = false) :
    (runDeploy pr mode vault pid fs).2 = 1 ∧
    (runDeploy pr mode vault pid fs).1 = (ensureDistReady pr fs).1 ∧
    FNode.lookup (runDeploy pr mode vault pid fs).1.root q =
      FNode.lookup fs.root q := by
  have hrd : runDeploy pr mode vault pid fs = ((ensureDistReady pr fs).1, 1) := by
    unfold runDeploy
    cases hens : ensureDistReady pr fs with
    | mk fs' oe =>
      cases oe with
      | none => simp only [if_neg h1, if_neg h2]
      | some e => rfl
  rw [hrd]
  exact ⟨rfl, rfl, ensureDistReady_frame pr fs q hq1 hq2⟩

/-- Witness for the amended C2 at mode `"sync"` on `fsB`. -/
theorem C2_unknown_mode_witness :
    (runDeploy ["pr"] "sync" ["v"] "p" fsB).2 = 1 ∧
    (runDeploy ["pr"] "sync" ["v"] "p" fsB).1 =
      (ensureDistReady ["pr"] fsB).1 ∧
    FNode.lookup (runDeploy ["pr"] "sync" ["v"] "p" fsB).1.root
        (targetPluginDir ["v"] "p") =
      FNode.lookup fsB.root (targetPluginDir ["v"] "p") :=
  C2_unknown_mode_exits_1 ["pr"] ["v"] "p" "sync" fsB
    (targetPluginDir ["v"] "p") (by decide) (by decide) (by decide) (by decide)

/-- Claim C6, amended: when the resolved target path equals the resolved
artifact path, the run exits with success status 0 and performs no
filesystem mutation beyond the pre-dispatch `ensureDistReady` step: the
final state is exactly the state after ensuring the artifact directory and
marker (assumed to succeed), and paths unrelated to the artifact directory
are untouched. -/
theorem C6_self_target_guard (pr vault : FsPath) (pid mode : String)
    (fs fs₁ : FS) (q : FsPath)
    (hm : mode = "link" ∨ mode = "copy")
    (hg : resolvePath (targetPluginDir vault pid) = resolvePath (distDir pr))
    (hens : ensureDistReady pr fs = (fs₁, none))
    (hq1 : isInit (distDir pr) q = false)
    (hq2 : isInit q (distDir pr) = false) :
    runDeploy pr mode vault pid fs = (fs₁, 0) ∧
    FNode.lookup fs₁.root q = FNode.lookup fs.root q := by
  have hdl : deployLink pr vault pid fs₁ = (fs₁, .exited 0) := by
    unfold deployLink
    rw [if_pos hg]
  have hdc : deployCopy pr vault pid fs₁ = (fs₁, .exited 0) := by
    unfold deployCopy
    rw [if_pos hg]
  constructor
  · rcases hm with hm | hm
    · subst hm
      unfold runDeploy
      simp only [hens, hdl]
      simp
    · subst hm
      unfold runDeploy
      simp only [hens, hdc]
      simp
  · have := ensureDistReady_frame pr fs q hq1 hq2
    rw [hens] at this
    exact this

/-- Witness for the amended C6: a self-referential target in link mode with
the artifact directory already in place. -/
theorem C6_self_target_witness :
    runDeploy [".obsidian", "plugins"] "link" [] "dist"
      (FS.mk (.dir [(".obsidian", .dir [("plugins", .dir [("dist",
        .dir [(".hotreload", .file "")])])])]) []) =
      ((FS.mk (.dir [(".obsidian", .dir [("plugins", .dir [("dist",
        .dir [(".hotreload", .file "")])])])]) []), 0) ∧
    FNode.lookup (FS.mk (.dir [(".obsidian", .dir [("plugins", .dir [("dist",
        .dir [(".hotreload", .file "")])])])]) []).root ["z"] =
      FNode.lookup (FS.mk (.dir [(".obsidian", .dir [("plugins", .dir [("dist",
        .dir [(".hotreload", .file "")])])])]) []).root ["z"] :=
  C6_self_target_guard [".obsidian", "plugins"] [] "dist" "link"
    (FS.mk (.dir [(".obsidian", .dir [("plugins", .dir [("dist",
      .dir [(".hotreload", .file "")])])])]) [])
    (FS.mk (.dir [(".obsidian", .dir [("plugins", .dir [("dist",
      .dir [(".hotreload", .file "")])])])]) [])
    ["z"] (Or.inl rfl) (by decide) rfl (by decide) (by decide)

/-! ### Entry-list lemmas for the copy proof -/

theorem nodupB_cons {s : String} {l : List String}
    (h : nodupB (s :: l) = true) :
    l.contains s = false ∧ nodupB l = true := by
  unfold nodupB at h
  obtain ⟨h1, h2⟩ := Bool.and_eq_true _ _ |>.mp h
  refine ⟨?_, h2⟩
  revert h1
  cases l.contains s <;> simp

theorem contains_false_ne {l : List String} {s s' : String}
    (h : l.contains s = false) (hm : s' ∈ l) : s ≠ s' := by
  intro he
  subst he
  have h' : l.elem s = true := List.elem_eq_true_of_mem hm
  rw [show l.contains s = l.elem s from rfl, h'] at h
  exact Bool.noConfusion h

theorem mem_entryNames {es : List (String × FNode)} {nm : String}
    {n : FNode} (h : (nm, n) ∈ es) : nm ∈ entryNames es := by
  exact List.mem_map_of_mem Prod.fst h

theorem findEntry_of_mem_nodup {es : List (String × FNode)} {nm : String}
    {n : FNode} (hnd : nodupB (entryNames es) = true) (hm : (nm, n) ∈ es) :
    findEntry es nm = some n := by
  induction es with
  | nil => exact absurd hm (by simp)
  | cons e rest ih =>
    obtain ⟨m, x⟩ := e
    have hnd' : nodupB (m :: entryNames rest) = true := hnd
    obtain ⟨hc, hnd₂⟩ := nodupB_cons hnd'
    rcases List.mem_cons.1 hm with hh | hh
    · injection hh with h1 h2
      rw [findEntry_cons, if_pos h1.symm, h2]
    · have hne : m ≠ nm := contains_false_ne hc (mem_entryNames hh)
      rw [findEntry_cons, if_neg hne]
      exact ih hnd₂ hh

theorem wfNode_dir {es : List (String × FNode)}
    (h : wfNode (.dir es) = true) :
    nodupB (entryNames es) = true ∧ wfEntries es = true := by
  unfold wfNode at h
  exact Bool.and_eq_true _ _ |>.mp h

theorem wfEntries_mem {es : List (String × FNode)} {nm : String} {n : FNode}
    (h : wfEntries es = true) (hm : (nm, n) ∈ es) : wfNode n = true := by
  induction es with
  | nil => exact absurd hm (by simp)
  | cons e rest ih =>
    obtain ⟨m, x⟩ := e
    unfold wfEntries at h
    obtain ⟨h1, h2⟩ := Bool.and_eq_true _ _ |>.mp h
    rcases List.mem_cons.1 hm with hh | hh
    · injection hh with hh1 hh2
      rw [hh2]; exact h1
    · exact ih h2 hh

theorem linksDirect_dir {root : FNode} {dest : FsPath}
    {es : List (String × FNode)} (h : linksDirect root dest (.dir es) = true) :
    linksDirectEntries root dest es = true := h

theorem linksDirectEntries_mem {root : FNode} {dest : FsPath}
    {es : List (String × FNode)} {nm : String} {n : FNode}
    (h : linksDirectEntries root dest es = true) (hm : (nm, n) ∈ es) :
    linksDirect root dest n = true := by
  induction es with
  | nil => exact absurd hm (by simp)
  | cons e rest ih =>
    obtain ⟨m, x⟩ := e
    unfold linksDirectEntries at h
    obtain ⟨h1, h2⟩ := Bool.and_eq_true _ _ |>.mp h
    rcases List.mem_cons.1 hm with hh | hh
    · injection hh with hh1 hh2
      rw [hh2]; exact h1
    · exact ih h2 hh

theorem linksDirect_link {root : FNode} {dest : FsPath} {t : FsPath}
    (h : linksDirect root dest (.link t) = true) :
    ∃ c, FNode.lookup root (resolvePath t) = some (.file c) ∧
      isInit dest (resolvePath t) = false ∧
      isInit (resolvePath t) dest = false := by
  unfold linksDirect at h
  split at h
  · rename_i c heq
    obtain ⟨h1, h2⟩ := Bool.and_eq_true _ _ |>.mp h
    refine ⟨c, heq, ?_, ?_⟩
    · revert h1; cases isInit dest (resolvePath t) <;> simp
    · revert h2; cases isInit (resolvePath t) dest <;> simp
  · exact Bool.noConfusion h

theorem matEntries_cons {root : FNode} {nm : String} {n : FNode}
    {rest : List (String × FNode)} :
    matEntries root ((nm, n) :: rest) =
      match matNode root n with
      | .error e => .error e
      | .ok n' =>
        match matEntries root rest with
        | .error e => .error e
        | .ok rest' => .ok ((nm, n') :: rest') := by
  rw [matEntries]

theorem matNode_dir {root : FNode} {es : List (String × FNode)} :
    matNode root (.dir es) =
      match matEntries root es with
      | .error e => .error e
      | .ok es' => .ok (.dir es') := by
  rw [matNode]

theorem matNode_link_file {root : FNode} {t : FsPath} {c : String}
    (h : FNode.lookup root (resolvePath t) = some (.file c)) :
    matNode root (.link t) = .ok (.file c) := by
  rw [matNode, h]

theorem replaceEntry_replaceEntry {es : List (String × FNode)} {s : String}
    {x y : FNode} :
    replaceEntry (replaceEntry es s x) s y = replaceEntry es s y := by
  induction es with
  | nil => rfl
  | cons e rest ih =>
    obtain ⟨m, n⟩ := e
    rw [replaceEntry_cons]
    by_cases hm : m = s
    · rw [if_pos hm, replaceEntry_cons, if_pos hm, replaceEntry_cons,
        if_pos hm]
    · rw [if_neg hm, replaceEntry_cons, if_neg hm, ih, replaceEntry_cons,
        if_neg hm]

theorem replaceEntry_append_self {es : List (String × FNode)} {s : String}
    {x y : FNode} (h : findEntry es s = none) :
    replaceEntry (es ++ [(s, x)]) s y = es ++ [(s, y)] := by
  induction es with
  | nil => simp [replaceEntry_cons]
  | cons e rest ih =>
    obtain ⟨m, n⟩ := e
    rw [findEntry_cons] at h
    by_cases hm : m = s
    · rw [if_pos hm] at h; exact Option.noConfusion h
    · rw [if_neg hm] at h
      rw [List.cons_append, replaceEntry_cons, if_neg hm, ih h,
        List.cons_append]

theorem findEntry_append_self {es : List (String × FNode)} {s : String}
    {x : FNode} (h : findEntry es s = none) :
    findEntry (es ++ [(s, x)]) s = some x := by
  rw [findEntry_append_right h, findEntry_cons, if_pos rfl]

theorem lookup_one {es : List (String × FNode)} {s : String} :
    FNode.lookup (.dir es) [s] = findEntry es s := by
  cases hf : findEntry es s with
  | some c => rw [lookup_dir_cons_some hf, lookup_nil]
  | none => rw [lookup_dir_cons_none hf]

theorem lookup_snoc_dir {n : FNode} {d : FsPath}
    {es : List (String × FNode)} {s : String}
    (h : FNode.lookup n d = some (.dir es)) :
    FNode.lookup n (d ++ [s]) = findEntry es s := by
  rw [lookup_append, h, Option.some_bind]
  exact lookup_one

theorem findEntry_mat {root : FNode} {es es' : List (String × FNode)}
    {s : String} {x : FNode}
    (h : matEntries root es = .ok es') (hf : findEntry es s = some x) :
    ∃ x', matNode root x = .ok x' ∧ findEntry es' s = some x' := by
  induction es generalizing es' with
  | nil => exact absurd hf (by simp [findEntry_nil])
  | cons e rest ih =>
    obtain ⟨m, n⟩ := e
    rw [matEntries_cons] at h
    split at h
    · exact Except.noConfusion h
    · rename_i n' hn
      split at h
      · exact Except.noConfusion h
      · rename_i rest' hrest
        injection h with h'
        rw [findEntry_cons] at hf
        by_cases hm : m = s
        · rw [if_pos hm] at hf
          injection hf with hf'
          refine ⟨n', by rw [← hf']; exact hn, ?_⟩
          rw [← h', findEntry_cons, if_pos hm]
        · rw [if_neg hm] at hf
          obtain ⟨x', hx1, hx2⟩ := ih hrest hf
          refine ⟨x', hx1, ?_⟩
          rw [← h', findEntry_cons, if_neg hm]
          exact hx2

/-! ### graftAt lemmas -/

theorem graftAt_nil {n v : FNode} : graftAt n [] v = .ok v := rfl

theorem graftAt_one_dir {es : List (String × FNode)} {s : String}
    {v : FNode} :
    graftAt (.dir es) [s] v =
      match findEntry es s with
      | some _ => .ok (.dir (replaceEntry es s v))
      | none => .ok (.dir (es ++ [(s, v)])) := rfl

theorem graftAt_one_file {c : String} {s : String} {v : FNode} :
    graftAt (.file c) [s] v = .error .enotdir := rfl

theorem graftAt_one_link {t : FsPath} {s : String} {v : FNode} :
    graftAt (.link t) [s] v = .error .enotdir := rfl

theorem graftAt_cons2_dir {es : List (String × FNode)} {s r : String}
    {rest : FsPath} {v : FNode} :
    graftAt (.dir es) (s :: r :: rest) v =
      match findEntry es s with
      | some ch =>
        match graftAt ch (r :: rest) v with
        | .error e => .error e
        | .ok ch' => .ok (.dir (replaceEntry es s ch'))
      | none =>
        match graftAt (.dir []) (r :: rest) v with
        | .error e => .error e
        | .ok ch' => .ok (.dir (es ++ [(s, ch')])) := rfl

theorem graftAt_cons2_file {c : String} {s r : String} {rest : FsPath}
    {v : FNode} : graftAt (.file c) (s :: r :: rest) v = .error .enotdir := rfl

theorem graftAt_cons2_link {t : FsPath} {s r : String} {rest : FsPath}
    {v : FNode} : graftAt (.link t) (s :: r :: rest) v = .error .enotdir := rfl

theorem graftAt_self {n n' v : FNode} {p : FsPath}
    (h : graftAt n p v = .ok n') : FNode.lookup n' p = some v := by
  induction p generalizing n n' with
  | nil =>
    rw [graftAt_nil] at h
    injection h with h'
    rw [← h', lookup_nil]
  | cons s rest ih =>
    cases rest with
    | nil =>
      cases n with
      | file c₀ => rw [graftAt_one_file] at h; exact Except.noConfusion h
      | link t => rw [graftAt_one_link] at h; exact Except.noConfusion h
      | dir es =>
        rw [graftAt_one_dir] at h
        split at h
        · rename_i x hf
          injection h with h'
          rw [← h',
            lookup_dir_cons_some (findEntry_replaceEntry_self hf), lookup_nil]
        · rename_i hf
          injection h with h'
          rw [← h', lookup_dir_cons_some (findEntry_append_self hf),
            lookup_nil]
    | cons r rest' =>
      cases n with
      | file c₀ => rw [graftAt_cons2_file] at h; exact Except.noConfusion h
      | link t => rw [graftAt_cons2_link] at h; exact Except.noConfusion h
      | dir es =>
        rw [graftAt_cons2_dir] at h
        split at h
        · rename_i ch hf
          split at h
          · exact Except.noConfusion h
          · rename_i ch' hm
            injection h with h'
            rw [← h', lookup_dir_cons_some (findEntry_replaceEntry_self hf)]
            exact ih hm
        · rename_i hf
          split at h
          · exact Except.noConfusion h
          · rename_i ch' hm
            injection h with h'
            rw [← h', lookup_dir_cons_some (findEntry_append_self hf)]
            exact ih hm

theorem graftAt_frame {n n' v : FNode} {p q : FsPath}
    (h : graftAt n p v = .ok n') (hpq : isInit p q = false)
    (hqp : isInit q p = false) :
    FNode.lookup n' q = FNode.lookup n q := by
  induction p generalizing n n' q with
  | nil => exact absurd hpq (by simp [isInit])
  | cons s rest ih =>
    cases q with
    | nil => exact absurd hqp (by simp [isInit])
    | cons s' q' =>
      cases rest with
      | nil =>
        cases n with
        | file c₀ => rw [graftAt_one_file] at h; exact Except.noConfusion h
        | link t => rw [graftAt_one_link] at h; exact Except.noConfusion h
        | dir es =>
          rw [graftAt_one_dir] at h
          by_cases hs : s = s'
          · subst hs
            rw [isInit_cons_cons] at hpq
            exact absurd hpq (by simp [isInit])
          · have hs' : ¬ s' = s := fun hh => hs hh.symm
            split at h
            · rename_i x hf
              injection h with h'
              rw [← h', lookup_dir_cons, lookup_dir_cons,
                findEntry_replaceEntry_ne hs']
            · rename_i hf
              injection h with h'
              cases hfe : findEntry es s' with
              | some c₀ =>
                rw [← h', lookup_dir_cons, lookup_dir_cons, hfe,
                  findEntry_append_left hfe]
              | none =>
                rw [← h', lookup_dir_cons, lookup_dir_cons, hfe,
                  findEntry_append_right hfe, findEntry_cons, if_neg hs,
                  findEntry_nil]
      | cons r rest' =>
        cases n with
        | file c₀ => rw [graftAt_cons2_file] at h; exact Except.noConfusion h
        | link t => rw [graftAt_cons2_link] at h; exact Except.noConfusion h
        | dir es =>
          rw [graftAt_cons2_dir] at h
          by_cases hs : s = s'
          · subst hs
            rw [isInit_cons_cons] at hpq hqp
            split at h
            · rename_i ch hf
              split at h
              · exact Except.noConfusion h
              · rename_i ch' hm
                injection h with h'
                rw [← h',
                  lookup_dir_cons_some (findEntry_replaceEntry_self hf),
                  lookup_dir_cons_some hf]
                exact ih hm hpq hqp
            · rename_i hf
              split at h
              · exact Except.noConfusion h
              · rename_i ch' hm
                injection h with h'
                rw [← h', lookup_dir_cons_some (findEntry_append_self hf),
                  lookup_dir_cons_none hf, ih hm hpq hqp]
                cases q' with
                | nil => exact absurd hqp (by simp [isInit])
                | cons x q'' => exact lookup_dir_cons_none findEntry_nil
          · have hs' : ¬ s' = s := fun hh => hs hh.symm
            split at h
            · rename_i ch hf
              split at h
              · exact Except.noConfusion h
              · rename_i ch' hm
                injection h with h'
                rw [← h', lookup_dir_cons, lookup_dir_cons,
                  findEntry_replaceEntry_ne hs']
            · rename_i hf
              split at h
              · exact Except.noConfusion h
              · rename_i ch' hm
                injection h with h'
                cases hfe : findEntry es s' with
                | some c₀ =>
                  rw [← h', lookup_dir_cons, lookup_dir_cons, hfe,
                    findEntry_append_left hfe]
                | none =>
                  rw [← h', lookup_dir_cons, lookup_dir_cons, hfe,
                    findEntry_append_right hfe, findEntry_cons, if_neg hs,
                    findEntry_nil]

/-- On an absent path, recursive directory creation is exactly a graft of an
empty directory. -/
theorem mkdirp_eq_graft {n : FNode} {p : FsPath}
    (h : FNode.lookup n p = none) :
    mkdirp n p = graftAt n p (.dir []) := by
  induction p generalizing n with
  | nil => rw [lookup_nil] at h; exact Option.noConfusion h
  | cons s rest ih =>
    cases rest with
    | nil =>
      cases n with
      | file c => rw [mkdirp_cons_file, graftAt_one_file]
      | link t => rw [mkdirp_cons_link, graftAt_one_link]
      | dir es =>
        cases hf : findEntry es s with
        | some c =>
          rw [lookup_dir_cons_some hf, lookup_nil] at h
          exact Option.noConfusion h
        | none =>
          simp only [mkdirp_cons_dir, graftAt_one_dir, hf, mkdirp_nil_dir]
    | cons r rest' =>
      cases n with
      | file c => rw [mkdirp_cons_file, graftAt_cons2_file]
      | link t => rw [mkdirp_cons_link, graftAt_cons2_link]
      | dir es =>
        cases hf : findEntry es s with
        | some c =>
          rw [lookup_dir_cons_some hf] at h
          simp only [mkdirp_cons_dir, graftAt_cons2_dir, hf, ih h]
        | none =>
          have hnone : FNode.lookup (.dir []) (r :: rest') = none :=
            lookup_dir_cons_none findEntry_nil
          simp only [mkdirp_cons_dir, graftAt_cons2_dir, hf, ih hnone]

/-- Writing a fresh file under an existing directory is a graft of that
file node, and it succeeds. -/
theorem writeAt_graft {n : FNode} {d : FsPath}
    {es : List (String × FNode)} {nm : String} {c : String}
    (hd : FNode.lookup n d = some (.dir es))
    (hf : findEntry es nm = none) :
    ∃ n', writeAt n (d ++ [nm]) c = .ok n' ∧
      graftAt n (d ++ [nm]) (.file c) = .ok n' := by
  induction d generalizing n es with
  | nil =>
    rw [lookup_nil] at hd
    injection hd with hd'
    subst hd'
    refine ⟨.dir (es ++ [(nm, .file c)]), ?_, ?_⟩
    · simp only [List.nil_append, writeAt_one_dir, hf]
    · simp only [List.nil_append, graftAt_one_dir, hf]
  | cons s d' ih =>
    cases n with
    | file c₀ => rw [lookup_file_cons] at hd; exact Option.noConfusion hd
    | link t => rw [lookup_link_cons] at hd; exact Option.noConfusion hd
    | dir es₂ =>
      cases hfe : findEntry es₂ s with
      | none => rw [lookup_dir_cons_none hfe] at hd; exact Option.noConfusion hd
      | some ch =>
        rw [lookup_dir_cons_some hfe] at hd
        obtain ⟨ch', hw, hg⟩ := ih hd hf
        obtain ⟨r, rest, hrr⟩ : ∃ r rest, d' ++ [nm] = r :: rest := by
          cases d' with
          | nil => exact ⟨nm, [], rfl⟩
          | cons a b => exact ⟨a, b ++ [nm], rfl⟩
        rw [hrr] at hw hg
        refine ⟨.dir (replaceEntry es₂ s ch'), ?_, ?_⟩
        · show writeAt (.dir es₂) ((s :: d') ++ [nm]) c = _
          rw [List.cons_append, hrr]
          simp only [writeAt_cons2_dir, hfe, hw]
        · show graftAt (.dir es₂) ((s :: d') ++ [nm]) (.file c) = _
          rw [List.cons_append, hrr]
          simp only [graftAt_cons2_dir, hfe, hg]

/-- Composing a graft of a directory with a graft of one fresh entry just
below it is a graft of the extended directory. -/
theorem graft_compose {n n₁ n₂ v : FNode} {d : FsPath}
    {acc : List (String × FNode)} {nm : String}
    (h1 : graftAt n d (.dir acc) = .ok n₁)
    (hf : findEntry acc nm = none)
    (h3 : graftAt n₁ (d ++ [nm]) v = .ok n₂) :
    graftAt n d (.dir (acc ++ [(nm, v)])) = .ok n₂ := by
  induction d generalizing n n₁ n₂ with
  | nil =>
    rw [graftAt_nil] at h1 ⊢
    injection h1 with h1'
    rw [← h1'] at h3
    simp only [List.nil_append, graftAt_one_dir, hf] at h3
    exact h3
  | cons s d' ih =>
    cases n with
    | file c₀ =>
      cases d' with
      | nil => rw [graftAt_one_file] at h1; exact Except.noConfusion h1
      | cons a b => rw [graftAt_cons2_file] at h1; exact Except.noConfusion h1
    | link t =>
      cases d' with
      | nil => rw [graftAt_one_link] at h1; exact Except.noConfusion h1
      | cons a b => rw [graftAt_cons2_link] at h1; exact Except.noConfusion h1
    | dir es =>
      cases d' with
      | nil =>
        rw [graftAt_one_dir] at h1
        split at h1
        · rename_i x hfe
          injection h1 with h1'
          rw [← h1'] at h3
          simp only [List.cons_append, List.nil_append] at h3
          rw [graftAt_cons2_dir] at h3
          simp only [findEntry_replaceEntry_self hfe] at h3
          simp only [graftAt_one_dir, hf] at h3
          injection h3 with h3'
          rw [graftAt_one_dir]
          simp only [hfe]
          rw [← h3', replaceEntry_replaceEntry]
        · rename_i hfe
          injection h1 with h1'
          rw [← h1'] at h3
          simp only [List.cons_append, List.nil_append] at h3
          rw [graftAt_cons2_dir] at h3
          simp only [findEntry_append_self hfe] at h3
          simp only [graftAt_one_dir, hf] at h3
          injection h3 with h3'
          rw [graftAt_one_dir]
          simp only [hfe]
          rw [← h3', replaceEntry_append_self hfe]
      | cons r d'' =>
        rw [graftAt_cons2_dir] at h1
        split at h1
        · rename_i ch hfe
          split at h1
          · exact Except.noConfusion h1
          · rename_i ch₁ hg1
            injection h1 with h1'
            rw [← h1'] at h3
            simp only [List.cons_append] at h3
            rw [graftAt_cons2_dir] at h3
            simp only [findEntry_replaceEntry_self hfe] at h3
            cases hg3 : graftAt ch₁ (r :: (d'' ++ [nm])) v with
            | error e =>
              simp only [hg3] at h3
              exact Except.noConfusion h3
            | ok ch₂ =>
              simp only [hg3] at h3
              injection h3 with h3'
              have hg3' : graftAt ch₁ ((r :: d'') ++ [nm]) v = .ok ch₂ := by
                simpa using hg3
              have hcomp := ih hg1 hg3'
              rw [graftAt_cons2_dir]
              simp only [hfe, hcomp]
              rw [← h3', replaceEntry_replaceEntry]
        · rename_i hfe
          split at h1
          · exact Except.noConfusion h1
          · rename_i ch₁ hg1
            injection h1 with h1'
            rw [← h1'] at h3
            simp only [List.cons_append] at h3
            rw [graftAt_cons2_dir] at h3
            simp only [findEntry_append_self hfe] at h3
            cases hg3 : graftAt ch₁ (r :: (d'' ++ [nm])) v with
            | error e =>
              simp only [hg3] at h3
              exact Except.noConfusion h3
            | ok ch₂ =>
              simp only [hg3] at h3
              injection h3 with h3'
              have hg3' : graftAt ch₁ ((r :: d'') ++ [nm]) v = .ok ch₂ := by
                simpa using hg3
              have hcomp := ih hg1 hg3'
              rw [graftAt_cons2_dir]
              simp only [hfe, hcomp]
              rw [← h3', replaceEntry_append_self hfe]

/-! ### Run lemmas for the copy loop -/

theorem copyFileSync_follow_run {fs : FS} {src dest : FsPath} {c : String}
    (he : fs.errs = []) (hf : followLinks fs.root 32 src = some (.file c)) :
    copyFileSync fs src dest =
      match writeAt fs.root dest c with
      | .error e => .error e
      | .ok r => .ok ⟨r, fs.errs⟩ := by
  unfold copyFileSync
  rw [he]
  simp [hf]

theorem readdir_run {fs : FS} {p : FsPath} {es : List (String × FNode)}
    (he : fs.errs = []) (h : FNode.lookup fs.root p = some (.dir es)) :
    readdirSync fs p = .ok es := by
  unfold readdirSync
  rw [he, h]
  simp

theorem readdir_err_file {fs : FS} {p : FsPath} {c : String}
    (he : fs.errs = []) (h : FNode.lookup fs.root p = some (.file c)) :
    readdirSync fs p = .error .enotdir := by
  unfold readdirSync
  rw [he, h]
  simp

theorem readdir_err_link {fs : FS} {p : FsPath} {t : FsPath}
    (he : fs.errs = []) (h : FNode.lookup fs.root p = some (.link t)) :
    readdirSync fs p = .error .enotdir := by
  unfold readdirSync
  rw [he, h]
  simp

theorem copyDirRecursive_zero {fs : FS} {src dest : FsPath} :
    copyDirRecursive 0 fs src dest = (fs, some .fuelOut) := rfl

theorem copyDirRecursive_succ {fuel : Nat} {fs : FS} {src dest : FsPath} :
    copyDirRecursive (fuel + 1) fs src dest =
      match mkdirp fs.root dest with
      | .error e => (fs, some e)
      | .ok r =>
        match readdirSync ⟨r, fs.errs⟩ src with
        | .error e => (⟨r, fs.errs⟩, some e)
        | .ok entries =>
          copyEntriesAux (copyDirRecursive fuel) ⟨r, fs.errs⟩ src dest
            entries := rfl

theorem copyEntriesAux_nil {go : FS → FsPath → FsPath → FS × Option Err}
    {fs : FS} {src dest : FsPath} :
    copyEntriesAux go fs src dest [] = (fs, none) := rfl

theorem copyEntriesAux_cons_dir
    {go : FS → FsPath → FsPath → FS × Option Err} {fs : FS}
    {src dest : FsPath} {nm : String} {es_c : List (String × FNode)}
    {rest : List (String × FNode)} :
    copyEntriesAux go fs src dest ((nm, .dir es_c) :: rest) =
      match go fs (src ++ [nm]) (dest ++ [nm]) with
      | (fs', none) => copyEntriesAux go fs' src dest rest
      | (fs', some e) => (fs', some e) := rfl

theorem copyEntriesAux_cons_file
    {go : FS → FsPath → FsPath → FS × Option Err} {fs : FS}
    {src dest : FsPath} {nm : String} {c : String}
    {rest : List (String × FNode)} :
    copyEntriesAux go fs src dest ((nm, .file c) :: rest) =
      match copyFileSync fs (src ++ [nm]) (dest ++ [nm]) with
      | .ok fs' => copyEntriesAux go fs' src dest rest
      | .error e => (fs, some e) := rfl

theorem copyEntriesAux_cons_link
    {go : FS → FsPath → FsPath → FS × Option Err} {fs : FS}
    {src dest : FsPath} {nm : String} {t : FsPath}
    {rest : List (String × FNode)} :
    copyEntriesAux go fs src dest ((nm, .link t) :: rest) =
      match copyFileSync fs (src ++ [nm]) (dest ++ [nm]) with
      | .ok fs' => copyEntriesAux go fs' src dest rest
      | .error e => (fs, some e) := rfl

theorem targetPluginDir_ne_nil {vault : FsPath} {pid : String} :
    targetPluginDir vault pid ≠ [] := by
  unfold targetPluginDir
  simp

theorem FS_root_mk {r : FNode} {e : List FsPath} : (FS.mk r e).root = r := rfl

theorem FS_errs_mk {r : FNode} {e : List FsPath} : (FS.mk r e).errs = e := rfl

/-- The copy loop over a list of remaining entries: starting from a state
that is the original root with the directory `acc` grafted at `dest`, a
successful loop ends in the original root with `acc` extended by the
materialization of the remaining entries, in order. -/
theorem copyEntries_graft (R : FNode) (D : FsPath)
    (go : FS → FsPath → FsPath → FS × Option Err)
    (Hgo : ∀ (fs : FS) (src dest : FsPath) (fs' : FS) (S : FNode),
      go fs src dest = (fs', none) → fs.errs = [] →
      FNode.lookup fs.root src = some S →
      FNode.lookup fs.root dest = none →
      isInit src dest = false → isInit dest src = false →
      isInit D dest = true →
      (∀ q, isInit D q = false → isInit q D = false →
        FNode.lookup fs.root q = FNode.lookup R q) →
      wfNode S = true → linksDirect R D S = true →
      ∃ M, matNode R S = .ok M ∧ graftAt fs.root dest M = .ok fs'.root ∧
        fs'.errs = []) :
    ∀ (rem : List (String × FNode)) (root rooti : FNode)
      (src dest : FsPath) (acc es₀ : List (String × FNode)) (fs' : FS),
      copyEntriesAux go ⟨rooti, []⟩ src dest rem = (fs', none) →
      graftAt root dest (.dir acc) = .ok rooti →
      FNode.lookup root src = some (.dir es₀) →
      isInit src dest = false → isInit dest src = false →
      isInit D dest = true →
      (∀ q, isInit D q = false → isInit q D = false →
        FNode.lookup root q = FNode.lookup R q) →
      (∀ nm nd, (nm, nd) ∈ rem → findEntry es₀ nm = some nd) →
      (∀ nm nd, (nm, nd) ∈ rem → findEntry acc nm = none) →
      nodupB (entryNames rem) = true →
      (∀ nm nd, (nm, nd) ∈ rem → wfNode nd = true) →
      (∀ nm nd, (nm, nd) ∈ rem → linksDirect R D nd = true) →
      ∃ ms, matEntries R rem = .ok ms ∧
        graftAt root dest (.dir (acc ++ ms)) = .ok fs'.root ∧
        fs'.errs = [] := by
  intro rem
  induction rem with
  | nil =>
    intro root rooti src dest acc es₀ fs' hca hgr hsrc hsd hds hDd hagree
      Hsub Hacc hnd Hwf Hlk
    rw [copyEntriesAux_nil] at hca
    have h1 : (⟨rooti, []⟩ : FS) = fs' := congrArg Prod.fst hca
    refine ⟨[], rfl, ?_, ?_⟩
    · rw [List.append_nil, ← h1]
      exact hgr
    · rw [← h1]
  | cons e rest ih =>
    obtain ⟨nm, nd⟩ := e
    intro root rooti src dest acc es₀ fs' hca hgr hsrc hsd hds hDd hagree
      Hsub Hacc hnd Hwf Hlk
    have hmem : (nm, nd) ∈ (nm, nd) :: rest := List.mem_cons_self _ _
    have hroot_src : FNode.lookup rooti src = some (.dir es₀) := by
      rw [graftAt_frame hgr hds hsd]
      exact hsrc
    have hdest_acc : FNode.lookup rooti dest = some (.dir acc) :=
      graftAt_self hgr
    have hsrc_child : FNode.lookup rooti (src ++ [nm]) = some nd := by
      rw [lookup_snoc_dir hroot_src]
      exact Hsub nm nd hmem
    have hdest_child : FNode.lookup rooti (dest ++ [nm]) = none := by
      rw [lookup_snoc_dir hdest_acc]
      exact Hacc nm nd hmem
    have hsd' : isInit (src ++ [nm]) (dest ++ [nm]) = false :=
      notInit_snoc_snoc hsd
    have hds' : isInit (dest ++ [nm]) (src ++ [nm]) = false :=
      notInit_snoc_snoc hds
    have hDd' : isInit D (dest ++ [nm]) = true :=
      isInit_trans hDd (isInit_append dest [nm])
    have hagree_i : ∀ q, isInit D q = false → isInit q D = false →
        FNode.lookup rooti q = FNode.lookup R q := by
      intro q hq1 hq2
      have hqd1 : isInit dest q = false := by
        by_contra hc
        have hc' : isInit dest q = true := by
          revert hc; cases isInit dest q <;> simp
        rw [isInit_trans hDd hc'] at hq1
        exact Bool.noConfusion hq1
      have hqd2 : isInit q dest = false := by
        by_contra hc
        have hc' : isInit q dest = true := by
          revert hc; cases isInit q dest <;> simp
        rcases isInit_comparable hc' hDd with hcc | hcc
        · rw [hcc] at hq2; exact Bool.noConfusion hq2
        · rw [hcc] at hq1; exact Bool.noConfusion hq1
      rw [graftAt_frame hgr hqd1 hqd2]
      exact hagree q hq1 hq2
    have hnd' : nodupB (nm :: entryNames rest) = true := by
      simpa [entryNames] using hnd
    obtain ⟨hcont, hnd_rest⟩ := nodupB_cons hnd'
    have Hacc' : ∀ (M : FNode), ∀ nm₂ nd₂, (nm₂, nd₂) ∈ rest →
        findEntry (acc ++ [(nm, M)]) nm₂ = none := by
      intro M nm₂ nd₂ hm2
      rw [findEntry_append_right (Hacc nm₂ nd₂ (List.mem_cons_of_mem _ hm2)),
        findEntry_cons,
        if_neg (contains_false_ne hcont (mem_entryNames hm2))]
      exact findEntry_nil
    cases nd with
    | dir es_c =>
      rw [copyEntriesAux_cons_dir] at hca
      split at hca
      · rename_i fs₁ hgo1
        obtain ⟨Mc, hmatc, hgraftc, herr₁⟩ :=
          Hgo ⟨rooti, []⟩ (src ++ [nm]) (dest ++ [nm]) fs₁ (.dir es_c)
            hgo1 rfl hsrc_child hdest_child hsd' hds' hDd' hagree_i
            (Hwf nm _ hmem) (Hlk nm _ hmem)
        obtain ⟨rt₁, er₁⟩ := fs₁
        have her : er₁ = [] := herr₁
        subst her
        have hgr2 : graftAt root dest (.dir (acc ++ [(nm, Mc)])) = .ok rt₁ :=
          graft_compose hgr (Hacc nm _ hmem) hgraftc
        obtain ⟨ms, hms, hgf, herr'⟩ :=
          ih root rt₁ src dest (acc ++ [(nm, Mc)]) es₀ fs' hca hgr2 hsrc
            hsd hds hDd hagree
            (fun nm₂ nd₂ hm2 => Hsub nm₂ nd₂ (List.mem_cons_of_mem _ hm2))
            (Hacc' Mc) hnd_rest
            (fun nm₂ nd₂ hm2 => Hwf nm₂ nd₂ (List.mem_cons_of_mem _ hm2))
            (fun nm₂ nd₂ hm2 => Hlk nm₂ nd₂ (List.mem_cons_of_mem _ hm2))
        refine ⟨(nm, Mc) :: ms, ?_, ?_, herr'⟩
        · rw [matEntries_cons]
          simp only [hmatc, hms]
        · rw [show acc ++ ((nm, Mc) :: ms) = (acc ++ [(nm, Mc)]) ++ ms by
            simp]
          exact hgf
      · rename_i fs₁ e hgo1
        exact absurd (congrArg Prod.snd hca) (by simp)
    | file c =>
      rw [copyEntriesAux_cons_file] at hca
      obtain ⟨w, hww, hgw⟩ := writeAt_graft hdest_acc (Hacc nm _ hmem)
      have hfl : followLinks rooti 32 (src ++ [nm]) = some (.file c) :=
        followLinks_file hsrc_child
      rw [copyFileSync_follow_run rfl hfl] at hca
      rw [hww] at hca
      have hmatc : matNode R (.file c) = .ok (.file c) := rfl
      have hgr2 : graftAt root dest (.dir (acc ++ [(nm, .file c)])) =
          .ok w := graft_compose hgr (Hacc nm _ hmem) hgw
      obtain ⟨ms, hms, hgf, herr'⟩ :=
        ih root w src dest (acc ++ [(nm, .file c)]) es₀ fs' hca hgr2 hsrc
          hsd hds hDd hagree
          (fun nm₂ nd₂ hm2 => Hsub nm₂ nd₂ (List.mem_cons_of_mem _ hm2))
          (Hacc' (.file c)) hnd_rest
          (fun nm₂ nd₂ hm2 => Hwf nm₂ nd₂ (List.mem_cons_of_mem _ hm2))
          (fun nm₂ nd₂ hm2 => Hlk nm₂ nd₂ (List.mem_cons_of_mem _ hm2))
      refine ⟨(nm, .file c) :: ms, ?_, ?_, herr'⟩
      · rw [matEntries_cons]
        simp only [hmatc, hms]
      · rw [show acc ++ ((nm, FNode.file c) :: ms) =
            (acc ++ [(nm, FNode.file c)]) ++ ms by simp]
        exact hgf
    | link t =>
      rw [copyEntriesAux_cons_link] at hca
      obtain ⟨c, hlook, hD1, hD2⟩ := linksDirect_link (Hlk nm _ hmem)
      have hlr : FNode.lookup rooti (resolvePath t) = some (.file c) := by
        rw [hagree_i (resolvePath t) hD1 hD2]
        exact hlook
      have hfl : followLinks rooti 32 (src ++ [nm]) = some (.file c) := by
        have h32 : followLinks rooti 32 (src ++ [nm]) =
            followLinks rooti 31 (resolvePath t) :=
          followLinks_link hsrc_child
        have h31 : followLinks rooti 31 (resolvePath t) = some (.file c) :=
          followLinks_file hlr
        rw [h32, h31]
      obtain ⟨w, hww, hgw⟩ := writeAt_graft hdest_acc (Hacc nm _ hmem)
      rw [copyFileSync_follow_run rfl hfl] at hca
      rw [hww] at hca
      have hmatc : matNode R (.link t) = .ok (.file c) :=
        matNode_link_file hlook
      have hgr2 : graftAt root dest (.dir (acc ++ [(nm, .file c)])) =
          .ok w := graft_compose hgr (Hacc nm _ hmem) hgw
      obtain ⟨ms, hms, hgf, herr'⟩ :=
        ih root w src dest (acc ++ [(nm, .file c)]) es₀ fs' hca hgr2 hsrc
          hsd hds hDd hagree
          (fun nm₂ nd₂ hm2 => Hsub nm₂ nd₂ (List.mem_cons_of_mem _ hm2))
          (Hacc' (.file c)) hnd_rest
          (fun nm₂ nd₂ hm2 => Hwf nm₂ nd₂ (List.mem_cons_of_mem _ hm2))
          (fun nm₂ nd₂ hm2 => Hlk nm₂ nd₂ (List.mem_cons_of_mem _ hm2))
      refine ⟨(nm, .file c) :: ms, ?_, ?_, herr'⟩
      · rw [matEntries_cons]
        simp only [hmatc, hms]
      · rw [show acc ++ ((nm, FNode.file c) :: ms) =
            (acc ++ [(nm, FNode.file c)]) ++ ms by simp]
        exact hgf

/-- A successful recursive copy into a fresh destination grafts the
materialization of the source tree at the destination and changes nothing
else, provided the source and destination are unrelated, the destination
sits inside the cone `D`, the state agrees with the reference root `R`
outside that cone, the source tree is well-formed, and its links resolve
directly in `R` outside the cone. -/
theorem copy_graft (R : FNode) (D : FsPath) :
    ∀ (fuel : Nat) (fs : FS) (src dest : FsPath) (fs' : FS) (S : FNode),
      copyDirRecursive fuel fs src dest = (fs', none) →
      fs.errs = [] →
      FNode.lookup fs.root src = some S →
      FNode.lookup fs.root dest = none →
      isInit src dest = false → isInit dest src = false →
      isInit D dest = true →
      (∀ q, isInit D q = false → isInit q D = false →
        FNode.lookup fs.root q = FNode.lookup R q) →
      wfNode S = true → linksDirect R D S = true →
      ∃ M, matNode R S = .ok M ∧ graftAt fs.root dest M = .ok fs'.root ∧
        fs'.errs = [] := by
  intro fuel
  induction fuel with
  | zero =>
    intro fs src dest fs' S hrun
    rw [copyDirRecursive_zero] at hrun
    exact fun _ _ _ _ _ _ _ _ _ => Option.noConfusion
      (show some Err.fuelOut = none from congrArg Prod.snd hrun)
  | succ fuel ihf =>
    intro fs src dest fs' S hrun herrs hsrc hdest hsd hds hDd hagree hwf hlk
    rw [copyDirRecursive_succ, herrs] at hrun
    split at hrun
    · rename_i e hmk
      exact Option.noConfusion
        (show some e = none from congrArg Prod.snd hrun)
    · rename_i r hmk
      have hg0 : graftAt fs.root dest (.dir []) = .ok r := by
        rw [← mkdirp_eq_graft hdest]
        exact hmk
      have hrsrc : FNode.lookup r src = some S := by
        rw [graftAt_frame hg0 hds hsd]
        exact hsrc
      split at hrun
      · rename_i e hrd
        exact Option.noConfusion
          (show some e = none from congrArg Prod.snd hrun)
      · rename_i entries hrd
        cases S with
        | file c =>
          rw [readdir_err_file rfl hrsrc] at hrd
          exact Except.noConfusion hrd
        | link t =>
          rw [readdir_err_link rfl hrsrc] at hrd
          exact Except.noConfusion hrd
        | dir es₀ =>
          rw [readdir_run rfl hrsrc] at hrd
          injection hrd with hent
          subst hent
          obtain ⟨hnd, hwfe⟩ := wfNode_dir hwf
          obtain ⟨ms, hms, hgf, herr'⟩ :=
            copyEntries_graft R D (copyDirRecursive fuel) ihf es₀ fs.root r
              src dest [] es₀ fs' hrun hg0 hsrc hsd hds hDd hagree
              (fun nm nd hm => findEntry_of_mem_nodup hnd hm)
              (fun nm nd hm => findEntry_nil)
              hnd
              (fun nm nd hm => wfEntries_mem hwfe hm)
              (fun nm nd hm => linksDirectEntries_mem (linksDirect_dir hlk) hm)
          refine ⟨.dir ms, ?_, ?_, herr'⟩
          · rw [matNode_dir]
            simp only [hms]
          · rw [show (FNode.dir ms) = .dir ([] ++ ms) by simp]
            exact hgf

/-! ### Bridge lemmas: link-free trees and materialized lookups -/

mutual

theorem noLinks_linksDirect (R : FNode) (D : FsPath) :
    ∀ n, noLinks n = true → linksDirect R D n = true
  | .file _, _ => rfl
  | .link _, h => Bool.noConfusion h
  | .dir es, h => noLinksEntries_linksDirect R D es h

theorem noLinksEntries_linksDirect (R : FNode) (D : FsPath) :
    ∀ es, noLinksEntries es = true → linksDirectEntries R D es = true
  | [], _ => rfl
  | (nm, n) :: rest, h => by
    unfold noLinksEntries at h
    obtain ⟨h1, h2⟩ := Bool.and_eq_true _ _ |>.mp h
    unfold linksDirectEntries
    rw [noLinks_linksDirect R D n h1,
      noLinksEntries_linksDirect R D rest h2]
    rfl

end

mutual

theorem noLinks_matNode (R : FNode) :
    ∀ n, noLinks n = true → matNode R n = .ok n
  | .file _, _ => rfl
  | .link _, h => Bool.noConfusion h
  | .dir es, h => by
    rw [matNode_dir]
    simp only [noLinksEntries_matEntries R es h]

theorem noLinksEntries_matEntries (R : FNode) :
    ∀ es, noLinksEntries es = true → matEntries R es = .ok es
  | [], _ => rfl
  | (nm, n) :: rest, h => by
    unfold noLinksEntries at h
    obtain ⟨h1, h2⟩ := Bool.and_eq_true _ _ |>.mp h
    rw [matEntries_cons]
    simp only [noLinks_matNode R n h1, noLinksEntries_matEntries R rest h2]

end

/-- Every link inside a source tree appears in its materialization as a
regular file holding the content the link resolves to in `R`. -/
theorem matNode_lookup {R : FNode} :
    ∀ (p : FsPath) (S M : FNode) (t : FsPath),
      matNode R S = .ok M → FNode.lookup S p = some (.link t) →
      ∃ c, FNode.lookup R (resolvePath t) = some (.file c) ∧
        FNode.lookup M p = some (.file c) := by
  intro p
  induction p with
  | nil =>
    intro S M t hm hl
    rw [lookup_nil] at hl
    injection hl with hl'
    subst hl'
    unfold matNode at hm
    split at hm
    · rename_i c heq
      injection hm with hm'
      exact ⟨c, heq, by rw [← hm', lookup_nil]⟩
    · exact Except.noConfusion hm
  | cons s rest ih =>
    intro S M t hm hl
    cases S with
    | file c => rw [lookup_file_cons] at hl; exact Option.noConfusion hl
    | link t₀ => rw [lookup_link_cons] at hl; exact Option.noConfusion hl
    | dir es =>
      cases hf : findEntry es s with
      | none => rw [lookup_dir_cons_none hf] at hl; exact Option.noConfusion hl
      | some ch =>
        rw [lookup_dir_cons_some hf] at hl
        rw [matNode_dir] at hm
        split at hm
        · exact Except.noConfusion hm
        · rename_i ms hms
          injection hm with hm'
          obtain ⟨ch', hmch, hf'⟩ := findEntry_mat hms hf
          obtain ⟨c, hRc, hMc⟩ := ih ch ch' t hmch hl
          refine ⟨c, hRc, ?_⟩
          rw [← hm', lookup_dir_cons_some hf']
          exact hMc

/-- Unpacking a successful copy-mode deployment: the final state holds the
materialization of the artifact tree at the target and agrees with the
initial state everywhere unrelated to the target. -/
theorem deployCopy_graft {pr vault : FsPath} {pid : String} {fs fs' : FS}
    {S : FNode}
    (hrun : deployCopy pr vault pid fs = (fs', .normal))
    (herrs : fs.errs = [])
    (hsrc : FNode.lookup fs.root (distDir pr) = some S)
    (hsd : isInit (distDir pr) (targetPluginDir vault pid) = false)
    (hds : isInit (targetPluginDir vault pid) (distDir pr) = false)
    (hwf : wfNode S = true)
    (hlk : linksDirect fs.root (targetPluginDir vault pid) S = true) :
    ∃ M, matNode fs.root S = .ok M ∧
      FNode.lookup fs'.root (targetPluginDir vault pid) = some M ∧
      (∀ q, isInit (targetPluginDir vault pid) q = false →
        isInit q (targetPluginDir vault pid) = false →
        FNode.lookup fs'.root q = FNode.lookup fs.root q) ∧
      fs'.errs = [] := by
  unfold deployCopy at hrun
  split at hrun
  · exact StepResult.noConfusion
      (show StepResult.exited 0 = .normal from congrArg Prod.snd hrun)
  · rename_i hguard
    split at hrun
    · rename_i hex
      split at hrun
      · rename_i fs2 hcp
        have hf2 : fs2 = fs' := congrArg Prod.fst hrun
        subst hf2
        cases hexT : existsSync fs (targetPluginDir vault pid) with
        | true =>
          have hfr : rmExisting fs (targetPluginDir vault pid) =
              ⟨removeAt fs.root (targetPluginDir vault pid), fs.errs⟩ := by
            simp [rmExisting, hexT]
          rw [hfr] at hcp
          have hsrc' : FNode.lookup
              (removeAt fs.root (targetPluginDir vault pid)) (distDir pr) =
              some S := by
            rw [removeAt_frame hds hsd]
            exact hsrc
          have hdest' : FNode.lookup
              (removeAt fs.root (targetPluginDir vault pid))
              (targetPluginDir vault pid) = none :=
            removeAt_lookup_self targetPluginDir_ne_nil
          obtain ⟨M, hmat, hgra, herr'⟩ :=
            copy_graft fs.root (targetPluginDir vault pid) _
              ⟨removeAt fs.root (targetPluginDir vault pid), fs.errs⟩
              (distDir pr) (targetPluginDir vault pid) fs2 S hcp herrs
              hsrc' hdest' hsd hds (isInit_refl _)
              (fun q h1 h2 => removeAt_frame h1 h2) hwf hlk
          refine ⟨M, hmat, graftAt_self hgra, ?_, herr'⟩
          intro q h1 h2
          rw [graftAt_frame hgra h1 h2]
          exact removeAt_frame h1 h2
        | false =>
          have hfr : rmExisting fs (targetPluginDir vault pid) = fs := by
            simp [rmExisting, hexT]
          rw [hfr] at hcp
          cases hlt : FNode.lookup fs.root (targetPluginDir vault pid) with
          | some v =>
            cases v with
            | file c =>
              exact absurd hexT (by
                rw [existsSync_of_file herrs hlt]
                simp)
            | dir es =>
              exact absurd hexT (by
                rw [existsSync_of_dir herrs hlt]
                simp)
            | link t =>
              obtain ⟨e, hme⟩ := mkdirp_err_of_link hlt
              rw [copyDirRecursive_succ, hme] at hcp
              exact Option.noConfusion
                (show some e = none from congrArg Prod.snd hcp)
          | none =>
            obtain ⟨M, hmat, hgra, herr'⟩ :=
              copy_graft fs.root (targetPluginDir vault pid) _ fs
                (distDir pr) (targetPluginDir vault pid) fs2 S hcp herrs
                hsrc hlt hsd hds (isInit_refl _)
                (fun q h1 h2 => rfl) hwf hlk
            refine ⟨M, hmat, graftAt_self hgra, ?_, herr'⟩
            intro q h1 h2
            rw [graftAt_frame hgra h1 h2]
      · rename_i fs2 e hcp
        exact StepResult.noConfusion
          (show StepResult.exited 1 = .normal from congrArg Prod.snd hrun)
    · exact StepResult.noConfusion
        (show StepResult.exited 1 = .normal from congrArg Prod.snd hrun)

/-- C7 (copy completeness): for every link-free, well-formed source tree,
after a successful copy-mode deployment the target path holds a tree equal
to the source tree — every file at its relative path with identical
content, every directory (empty ones included) — and every path unrelated
to the target is untouched.  Side conditions: the inspection-error list is
empty and the artifact and target paths are not nested in one another. -/
theorem C7_copy_completeness {pr vault : FsPath} {pid : String} {fs fs' : FS}
    {S : FNode}
    (hrun : deployCopy pr vault pid fs = (fs', .normal))
    (herrs : fs.errs = [])
    (hsrc : FNode.lookup fs.root (distDir pr) = some S)
    (hsd : isInit (distDir pr) (targetPluginDir vault pid) = false)
    (hds : isInit (targetPluginDir vault pid) (distDir pr) = false)
    (hwf : wfNode S = true)
    (hnl : noLinks S = true) :
    FNode.lookup fs'.root (targetPluginDir vault pid) = some S ∧
    (∀ q, isInit (targetPluginDir vault pid) q = false →
      isInit q (targetPluginDir vault pid) = false →
      FNode.lookup fs'.root q = FNode.lookup fs.root q) ∧
    fs'.errs = [] := by
  obtain ⟨M, hmat, hT, hframe, herr'⟩ :=
    deployCopy_graft hrun herrs hsrc hsd hds hwf
      (noLinks_linksDirect fs.root (targetPluginDir vault pid) S hnl)
  have hMS : M = S := by
    rw [noLinks_matNode fs.root S hnl] at hmat
    injection hmat with h'
    exact h'.symm
  subst hMS
  exact ⟨hT, hframe, herr'⟩

/-- C8 (symlink materialization): in copy mode, every symbolic link inside
the source tree appears at the corresponding relative path under the
target as a regular file holding the content its target resolves to — not
as a link.  Side conditions as in the completeness theorem, plus: each
link in the source resolves in one hop to a regular file away from the
target cone. -/
theorem C8_symlink_materialized {pr vault : FsPath} {pid : String}
    {fs fs' : FS} {S : FNode}
    (hrun : deployCopy pr vault pid fs = (fs', .normal))
    (herrs : fs.errs = [])
    (hsrc : FNode.lookup fs.root (distDir pr) = some S)
    (hsd : isInit (distDir pr) (targetPluginDir vault pid) = false)
    (hds : isInit (targetPluginDir vault pid) (distDir pr) = false)
    (hwf : wfNode S = true)
    (hlk : linksDirect fs.root (targetPluginDir vault pid) S = true) :
    ∀ p t, FNode.lookup S p = some (.link t) →
      ∃ c, FNode.lookup fs.root (resolvePath t) = some (.file c) ∧
        FNode.lookup fs'.root (targetPluginDir vault pid ++ p) =
          some (.file c) := by
  obtain ⟨M, hmat, hT, hframe, herr'⟩ :=
    deployCopy_graft hrun herrs hsrc hsd hds hwf hlk
  intro p t hl
  obtain ⟨c, hRc, hMc⟩ := matNode_lookup p S M t hmat hl
  refine ⟨c, hRc, ?_⟩
  rw [lookup_append, hT]
  exact hMc

theorem C7_copy_completeness_witness :
    FNode.lookup fs7res.root (targetPluginDir ["v"] "p") = some S7 ∧
    (∀ q, isInit (targetPluginDir ["v"] "p") q = false →
      isInit q (targetPluginDir ["v"] "p") = false →
      FNode.lookup fs7res.root q = FNode.lookup fs7.root q) ∧
    fs7res.errs = [] :=
  C7_copy_completeness
    (show deployCopy ["pr"] ["v"] "p" fs7 = (fs7res, .normal) from rfl)
    rfl rfl rfl rfl rfl rfl

theorem C8_symlink_materialized_witness :
    ∃ c, FNode.lookup fs8.root (resolvePath ["pr", "data", "f"]) =
        some (.file c) ∧
      FNode.lookup fs8res.root (targetPluginDir ["v"] "p" ++ ["lnk"]) =
        some (.file c) :=
  C8_symlink_materialized
    (show deployCopy ["pr"] ["v"] "p" fs8 = (fs8res, .normal) from rfl)
    rfl rfl rfl rfl rfl rfl ["lnk"] ["pr", "data", "f"] rfl
